import Mathlib

/-!
Verification development for the retrotool package codec
(src/format/pack.rs): a shallow embedding of the PACK container
reader/writer (`Package::read` / `Package::write`) over byte lists,
together with theorems about directory cross-validation, compression
dispatch, metadata span derivation, payload layout on write, and the
failure behaviour of the parser.

Byte buffers are `List Nat` (each element intended below 256); machine
integers are `Nat` with explicit `% 2 ^ w` where the source performs a
wrapping cast.  Fallible code returns `Except RError`; Rust panics
(out-of-range slice indexing, `-` underflow on unsigned integers) are
modelled by the distinguished error constructor `RError.crash`, kept
separate from `anyhow` errors (`RError.err`) produced by `ensure!` /
`bail!` / binrw parse failures.
-/

set_option maxRecDepth 100000

namespace RetroPack

/-- Byte-order selector passed by the caller of the codec (binrw `Endian`). -/
inductive Endian where
  | little
  | big
deriving DecidableEq, Repr

/-- A byte buffer; each element is intended to lie below 256. -/
abbrev Bytes := List Nat

/-- Little-endian value of a byte list. -/
def wordLE : Bytes → Nat
  | [] => 0
  | b :: rest => b + 256 * wordLE rest

/-- Value of a byte list under the given endianness. -/
def word (e : Endian) (bs : Bytes) : Nat :=
  match e with
  | .little => wordLE bs
  | .big => wordLE bs.reverse

/-- Little-endian byte encoding of `v` in `n` bytes (value taken mod 2^(8n)). -/
def bytesLE : Nat → Nat → Bytes
  | 0, _ => []
  | n + 1, v => v % 256 :: bytesLE n (v / 256)

/-- Byte encoding of `v` in `n` bytes under endianness `e`. -/
def enc (e : Endian) (n v : Nat) : Bytes :=
  match e with
  | .little => bytesLE n v
  | .big => (bytesLE n v).reverse

/-- Split off the first `n` bytes when that many are available. -/
def takeN (n : Nat) (bs : Bytes) : Option (Bytes × Bytes) :=
  if n ≤ bs.length then some (bs.take n, bs.drop n) else none

/-- Read one `n`-byte machine word under endianness `e`. -/
def readWord (e : Endian) (n : Nat) (bs : Bytes) : Option (Nat × Bytes) :=
  (takeN n bs).map (fun p => (word e p.1, p.2))

/-- Four-character type tag, kept as the four raw bytes in file order
(binrw reads a `FourCC` byte for byte, independent of endianness). -/
structure FourCC where
  a : Nat
  b : Nat
  c : Nat
  d : Nat
deriving DecidableEq, Repr

/-- `FourCC::swap`: reverse the byte order of a tag. -/
def FourCC.swap (f : FourCC) : FourCC := ⟨f.d, f.c, f.b, f.a⟩

def encFourCC (f : FourCC) : Bytes := [f.a, f.b, f.c, f.d]

def readFourCC : Bytes → Option (FourCC × Bytes)
  | a :: b :: c :: d :: rest => some (⟨a, b, c, d⟩, rest)
  | _ => none

def fourccRFRM : FourCC := ⟨0x52, 0x46, 0x52, 0x4D⟩
def fourccPACK : FourCC := ⟨0x50, 0x41, 0x43, 0x4B⟩
def fourccTOCC : FourCC := ⟨0x54, 0x4F, 0x43, 0x43⟩
def fourccMETA : FourCC := ⟨0x4D, 0x45, 0x54, 0x41⟩
def fourccSTRG : FourCC := ⟨0x53, 0x54, 0x52, 0x47⟩
def fourccADIR : FourCC := ⟨0x41, 0x44, 0x49, 0x52⟩

/-- Failure of a codec operation.  `err` models a typed `anyhow::Error`
returned to the caller; `crash` models a Rust panic (slice index out of
range, integer subtraction overflow), which is *not* an error return. -/
inductive RError where
  | err (msg : String)
  | crash (msg : String)
deriving DecidableEq, Repr

instance [DecidableEq ε] [DecidableEq α] : DecidableEq (Except ε α) := fun x y =>
  match x, y with
  | .ok a, .ok b =>
    if h : a = b then .isTrue (by subst h; rfl) else .isFalse (fun hh => h (by injection hh))
  | .ok _, .error _ => .isFalse (fun hh => Except.noConfusion hh)
  | .error _, .ok _ => .isFalse (fun hh => Except.noConfusion hh)
  | .error a, .error b =>
    if h : a = b then .isTrue (by subst h; rfl) else .isFalse (fun hh => h (by injection hh))

/-- Rust slice indexing `&data[a..b]`: panics unless `a ≤ b ≤ data.len()`. -/
def sliceCrash (data : Bytes) (a b : Nat) : Except RError Bytes :=
  if a ≤ b ∧ b ≤ data.length then .ok ((data.drop a).take (b - a))
  else .error (.crash "slice index out of range")

/-- Rust unsigned subtraction `a - b`: panics on underflow. -/
def subCrash (a b : Nat) : Except RError Nat :=
  if b ≤ a then .ok (a - b) else .error (.crash "attempt to subtract with overflow")

/-- Lift an `Option` parse result to `Except`, turning `none` into a typed
binrw-style error (end of input / bad data). -/
def toExc (msg : String) : Option α → Except RError α
  | some a => .ok a
  | none => .error (.err msg)

/-- Modelled from the spec: the container-framing collaborator's form
header (`FormDescriptor` of the `rfrm` module, not under `src/`).  A form
is "type tag + version pair + body, with total size known only after the
body is written"; the inner per-asset form header has a fixed 32-byte
overhead, which fixes the layout as the `RFRM` magic (4 bytes), body size
(8), an unknown field (8), type tag (4), version (4), other version (4). -/
structure FormDescriptor where
  size : Nat
  unk1 : Nat
  id : FourCC
  version : Nat
  other_version : Nat
deriving DecidableEq, Repr

/-- Modelled from the spec: `FormDescriptor::slice` of the framing
collaborator: parse a form header off the front of `data` and return
(header, body bytes, remaining bytes).  Header parse failures and a
body size larger than the remaining input are typed errors. -/
def FormDescriptor.slice (data : Bytes) (e : Endian) :
    Except RError (FormDescriptor × Bytes × Bytes) :=
  toExc "form header" (do
    let (magic, r0) ← readFourCC data
    guard (magic = fourccRFRM)
    let (size, r1) ← readWord e 8 r0
    let (unk1, r2) ← readWord e 8 r1
    let (id, r3) ← readFourCC r2
    let (version, r4) ← readWord e 4 r3
    let (other_version, r5) ← readWord e 4 r4
    let (body, remain) ← takeN size r5
    pure (⟨size, unk1, id, version, other_version⟩, body, remain))

/-- Modelled from the spec: the framing collaborator's chunk header
("a type tag + body, nested inside a form"; carries a chunk body length
and a skip-length field that the package reader never uses). -/
structure ChunkDescriptor where
  id : FourCC
  size : Nat
  unk : Nat
  skip : Nat
deriving DecidableEq, Repr

/-- Modelled from the spec: `ChunkDescriptor::slice` of the framing
collaborator: parse a chunk header and return (header, body, remaining). -/
def ChunkDescriptor.slice (data : Bytes) (e : Endian) :
    Except RError (ChunkDescriptor × Bytes × Bytes) :=
  toExc "chunk header" (do
    let (id, r0) ← readFourCC data
    let (size, r1) ← readWord e 8 r0
    let (unk, r2) ← readWord e 4 r1
    let (skip, r3) ← readWord e 8 r2
    let (body, remain) ← takeN size r3
    pure (⟨id, size, unk, skip⟩, body, remain))

/-- PACK::TOCC::ADIR chunk entry (`AssetDirectoryEntry`): fixed width
type tag (4), 128-bit id (16), version (4), other version (4),
offset (8), decompressed size (8), size (8). -/
structure AssetDirectoryEntry where
  asset_type : FourCC
  asset_id : Nat
  version : Nat
  other_version : Nat
  offset : Nat
  decompressed_size : Nat
  size : Nat
deriving DecidableEq, Repr

/-- PACK::TOCC::ADIR chunk (`AssetDirectory`); the on-disk `entry_count`
is derived from the list on write. -/
structure AssetDirectory where
  entries : List AssetDirectoryEntry
deriving DecidableEq, Repr

/-- PACK::TOCC::META chunk entry (`MetadataTableEntry`): 128-bit id and a
32-bit offset relative to the metadata chunk body start. -/
structure MetadataTableEntry where
  asset_id : Nat
  offset : Nat
deriving DecidableEq, Repr

/-- PACK::TOCC::STRG chunk entry (`StringTableEntry`): byte-order-swapped
type tag, 128-bit id, length-prefixed raw name bytes. -/
structure StringTableEntry where
  kind : FourCC
  asset_id : Nat
  name : Bytes
deriving DecidableEq, Repr

/-- Read-time provenance (`AssetInfo`). -/
structure AssetInfo where
  id : Nat
  compression_mode : Nat
  entry_idx : Nat
  orig_offset : Nat
deriving DecidableEq, Repr

/-- One fully materialized asset (`Asset`).  `name` and `meta` keep the
raw bytes; payload ownership (borrowed vs owned `Cow`) is a lifetime
property outside the embedding, the byte content is what is modelled. -/
structure Asset where
  id : Nat
  kind : FourCC
  name : Option Bytes
  data : Bytes
  meta : Option Bytes
  info : AssetInfo
  version : Nat
  other_version : Nat
deriving DecidableEq, Repr

/-- The whole container (`Package`). -/
structure Package where
  assets : List Asset
deriving DecidableEq, Repr

/-- Parse one directory entry (binrw-generated reader for
`AssetDirectoryEntry`, all fields under endianness `e`). -/
def readDirEntry (e : Endian) (bs : Bytes) : Option (AssetDirectoryEntry × Bytes) := do
  let (asset_type, r0) ← readFourCC bs
  let (asset_id, r1) ← readWord e 16 r0
  let (version, r2) ← readWord e 4 r1
  let (other_version, r3) ← readWord e 4 r2
  let (offset, r4) ← readWord e 8 r3
  let (decompressed_size, r5) ← readWord e 8 r4
  let (size, r6) ← readWord e 8 r5
  pure (⟨asset_type, asset_id, version, other_version, offset, decompressed_size, size⟩, r6)

def readDirEntries (e : Endian) : Nat → Bytes → Option (List AssetDirectoryEntry × Bytes)
  | 0, bs => some ([], bs)
  | n + 1, bs => do
    let (en, r) ← readDirEntry e bs
    let (tl, r2) ← readDirEntries e n r
    pure (en :: tl, r2)

/-- Parse an `AssetDirectory` from a chunk body (`reader.read_type(e)`;
trailing chunk bytes are ignored by the cursor-based reader). -/
def readAdir (e : Endian) (bs : Bytes) : Option AssetDirectory := do
  let (count, r) ← readWord e 4 bs
  let (entries, _) ← readDirEntries e count r
  pure ⟨entries⟩

def readMetaEntry (e : Endian) (bs : Bytes) : Option (MetadataTableEntry × Bytes) := do
  let (asset_id, r0) ← readWord e 16 bs
  let (offset, r1) ← readWord e 4 r0
  pure (⟨asset_id, offset⟩, r1)

def readMetaEntries (e : Endian) : Nat → Bytes → Option (List MetadataTableEntry × Bytes)
  | 0, bs => some ([], bs)
  | n + 1, bs => do
    let (en, r) ← readMetaEntry e bs
    let (tl, r2) ← readMetaEntries e n r
    pure (en :: tl, r2)

/-- Parse a `MetadataTable` from a chunk body. -/
def readMetaTable (e : Endian) (bs : Bytes) : Option (List MetadataTableEntry) := do
  let (count, r) ← readWord e 4 bs
  let (entries, _) ← readMetaEntries e count r
  pure entries

def readStrgEntry (e : Endian) (bs : Bytes) : Option (StringTableEntry × Bytes) := do
  let (rawKind, r0) ← readFourCC bs
  let (asset_id, r1) ← readWord e 16 r0
  let (nameLen, r2) ← readWord e 4 r1
  let (name, r3) ← takeN nameLen r2
  pure (⟨rawKind.swap, asset_id, name⟩, r3)

def readStrgEntries (e : Endian) : Nat → Bytes → Option (List StringTableEntry × Bytes)
  | 0, bs => some ([], bs)
  | n + 1, bs => do
    let (en, r) ← readStrgEntry e bs
    let (tl, r2) ← readStrgEntries e n r
    pure (en :: tl, r2)

/-- Parse a `StringTable` from a chunk body. -/
def readStrgTable (e : Endian) (bs : Bytes) : Option (List StringTableEntry) := do
  let (count, r) ← readWord e 4 bs
  let (entries, _) ← readStrgEntries e count r
  pure entries

/-- Is `c` a UTF-8 continuation byte? -/
def utf8Cont (c : Nat) : Bool := 0x80 ≤ c && c ≤ 0xBF

/-- Modelled from the spec: `String::from_utf8` validity (std library, not
under `src/`): the name bytes must form well-formed UTF-8 (RFC 3629).
Fuel-driven so the definition reduces by `rfl`/`decide`. -/
def utf8ValidF : Nat → Bytes → Bool
  | _, [] => true
  | 0, _ :: _ => false
  | fuel + 1, b :: rest =>
    if b ≤ 0x7F then utf8ValidF fuel rest
    else if 0xC2 ≤ b && b ≤ 0xDF then
      match rest with
      | c1 :: r => utf8Cont c1 && utf8ValidF fuel r
      | _ => false
    else if b = 0xE0 then
      match rest with
      | c1 :: c2 :: r => (0xA0 ≤ c1 && c1 ≤ 0xBF) && utf8Cont c2 && utf8ValidF fuel r
      | _ => false
    else if (0xE1 ≤ b && b ≤ 0xEC) || b = 0xEE || b = 0xEF then
      match rest with
      | c1 :: c2 :: r => utf8Cont c1 && utf8Cont c2 && utf8ValidF fuel r
      | _ => false
    else if b = 0xED then
      match rest with
      | c1 :: c2 :: r => (0x80 ≤ c1 && c1 ≤ 0x9F) && utf8Cont c2 && utf8ValidF fuel r
      | _ => false
    else if b = 0xF0 then
      match rest with
      | c1 :: c2 :: c3 :: r =>
        (0x90 ≤ c1 && c1 ≤ 0xBF) && utf8Cont c2 && utf8Cont c3 && utf8ValidF fuel r
      | _ => false
    else if 0xF1 ≤ b && b ≤ 0xF3 then
      match rest with
      | c1 :: c2 :: c3 :: r => utf8Cont c1 && utf8Cont c2 && utf8Cont c3 && utf8ValidF fuel r
      | _ => false
    else if b = 0xF4 then
      match rest with
      | c1 :: c2 :: c3 :: r =>
        (0x80 ≤ c1 && c1 ≤ 0x8F) && utf8Cont c2 && utf8Cont c3 && utf8ValidF fuel r
      | _ => false
    else false

def utf8Valid (bs : Bytes) : Bool := utf8ValidF bs.length bs

/-- Identity-keyed lookup (`HashMap::get`): the accumulators below prepend
on insert, so the first hit is the most recent insertion — matching the
HashMap's last-write-wins behaviour for duplicate identities. -/
def assocFind (m : List (Nat × Bytes)) (k : Nat) : Option Bytes :=
  (m.find? (fun p => p.1 == k)).map (fun p => p.2)

/-- State threaded through the TOCC chunk scan: the directory seen last
(if any) and the identity-keyed metadata / name accumulators. -/
structure TocState where
  adir : Option AssetDirectory
  meta : List (Nat × Bytes)
  strg : List (Nat × Bytes)
deriving DecidableEq, Repr

/-- META chunk scan, `pack.rs` lines 164-176: derive each entry's blob as
`chunk_data[offset .. offset + size]` where `size` is the next entry's
offset minus this one's (u32 subtraction, panics on underflow) or, for
the last entry, the chunk body length minus this entry's offset (usize
subtraction, panics on underflow).  Returns (asset_id, blob) in entry
order. -/
def metaSpans (chunkData : Bytes) : List MetadataTableEntry → Except RError (List (Nat × Bytes))
  | [] => .ok []
  | entry :: rest =>
    (match rest with
     | next :: _ => subCrash next.offset entry.offset
     | [] => subCrash chunkData.length entry.offset) >>= fun size =>
    sliceCrash chunkData entry.offset (entry.offset + size) >>= fun blob =>
    metaSpans chunkData rest >>= fun tl =>
    .ok ((entry.asset_id, blob) :: tl)

/-- `HashMap::insert` over the whole span list, in entry order: prepending
each span in turn leaves the last-inserted binding nearest the head. -/
def insertAll (m : List (Nat × Bytes)) : List (Nat × Bytes) → List (Nat × Bytes)
  | [] => m
  | p :: rest => insertAll (p :: m) rest

/-- STRG chunk scan, `pack.rs` lines 178-184: UTF-8-validate each name
(`String::from_utf8`, failure is a typed error via `?`) and insert it. -/
def strgFold (m : List (Nat × Bytes)) : List StringTableEntry → Except RError (List (Nat × Bytes))
  | [] => .ok m
  | en :: rest =>
    if utf8Valid en.name then strgFold ((en.asset_id, en.name) :: m) rest
    else .error (.err "invalid utf-8 in string table entry")

/-- Tag rendered into the unknown-chunk error message. -/
def fourccMsg (f : FourCC) : String := toString [f.a, f.b, f.c, f.d]

/-- Dispatch on one TOCC chunk's tag, `pack.rs` lines 154-186: decode the
directory (last one wins), the metadata table (deriving blob spans), or
the string table; any other tag is an immediate typed failure naming the
tag — the chunk is never skipped. -/
def processChunk (e : Endian) (st : TocState) (cid : FourCC) (chunkData : Bytes) :
    Except RError TocState :=
  if cid = fourccADIR then
    toExc "ADIR chunk" (readAdir e chunkData) >>= fun a =>
    .ok { st with adir := some a }
  else if cid = fourccMETA then
    toExc "META chunk" (readMetaTable e chunkData) >>= fun entries =>
    metaSpans chunkData entries >>= fun spans =>
    .ok { st with meta := insertAll st.meta spans }
  else if cid = fourccSTRG then
    toExc "STRG chunk" (readStrgTable e chunkData) >>= fun entries =>
    strgFold st.strg entries >>= fun m =>
    .ok { st with strg := m }
  else .error (.err ("Unhandled TOCC chunk " ++ fourccMsg cid))

/-- The `while !tocc_data.is_empty()` chunk loop, `pack.rs` lines 150-188.
Fuel-driven (each iteration consumes at least the 24-byte chunk header,
so fuel = byte count always suffices); fuel exhaustion is unreachable. -/
def processToccF (e : Endian) : Nat → Bytes → TocState → Except RError TocState
  | _, [], st => .ok st
  | 0, _ :: _, _ => .error (.err "chunk loop fuel exhausted")
  | fuel + 1, tocc@(_ :: _), st =>
    ChunkDescriptor.slice tocc e >>= fun (desc, chunkData, remain) =>
    processChunk e st desc.id chunkData >>= fun st2 =>
    processToccF e fuel remain st2

def processTocc (e : Endian) (toccData : Bytes) : Except RError TocState :=
  processToccF e toccData.length toccData ⟨none, [], []⟩

/-- The decompression collaborator (`util::lzss::decompress::<MODE>`): a
function from mode, compressed bytes and output size to output bytes.
The Rust function fills a caller-allocated buffer of exactly
`decompressed_size` bytes in place, so any instantiation satisfying the
buffer contract returns a list of the requested length. -/
abbrev Decomp := Nat → Bytes → Nat → Bytes

/-- Payload materialization for one directory entry, `pack.rs` lines
193-213: if `size != decompressed_size`, slice out the stored bytes,
read the first 4 bytes as a little-endian compression-mode selector,
dispatch modes 1-3 to the decompressor (any other selector is a typed
failure) over the remaining bytes into a buffer of exactly
`decompressed_size` bytes; otherwise the payload is the slice
`[offset, offset + size)` itself and the compression mode is 0. -/
def materialize (dec : Decomp) (data : Bytes) (entry : AssetDirectoryEntry) :
    Except RError (Nat × Bytes) :=
  if entry.size ≠ entry.decompressed_size then
    sliceCrash data entry.offset (entry.offset + entry.size) >>= fun compressed =>
    sliceCrash compressed 0 4 >>= fun selBytes =>
    let mode := word .little selBytes
    if mode = 1 ∨ mode = 2 ∨ mode = 3 then
      .ok (mode, dec mode (compressed.drop 4) entry.decompressed_size)
    else .error (.err ("Unsupported compression mode " ++ toString mode))
  else
    sliceCrash data entry.offset (entry.offset + entry.size) >>= fun payload =>
    .ok (0, payload)

/-- The "Validate RFRM" block, `pack.rs` lines 215-222: re-parse the
payload's leading bytes as an inner form header — with `Endian::Little`
hard-coded in the source — and require the four cross-checks against the
directory entry (`ensure!` failures are typed errors). -/
def validateAsset (payload : Bytes) (entry : AssetDirectoryEntry) : Except RError Unit :=
  FormDescriptor.slice payload Endian.little >>= fun (form, _, _) =>
  if entry.asset_type = form.id then
    if entry.version = form.version then
      if entry.other_version = form.other_version then
        if entry.decompressed_size = form.size + 32 then .ok ()
        else .error (.err "ensure failed: decompressed_size == form.size + 32")
      else .error (.err "ensure failed: other_version == form.other_version")
    else .error (.err "ensure failed: version == form.version")
  else .error (.err "ensure failed: asset_type == form.id")

/-- Loop body of `pack.rs` lines 192-238 for one directory entry:
materialize the payload, cross-validate it, and assemble the `Asset`
(name/metadata resolved through the identity-keyed lookups). -/
def buildAsset (dec : Decomp) (data : Bytes) (idx : Nat) (entry : AssetDirectoryEntry)
    (meta strg : List (Nat × Bytes)) : Except RError Asset :=
  materialize dec data entry >>= fun (mode, payload) =>
  validateAsset payload entry >>= fun _ =>
  .ok { id := entry.asset_id
        kind := entry.asset_type
        name := assocFind strg entry.asset_id
        data := payload
        meta := assocFind meta entry.asset_id
        info := { id := entry.asset_id, compression_mode := mode,
                  entry_idx := idx, orig_offset := entry.offset }
        version := entry.version
        other_version := entry.other_version }

/-- Assemble the assets of all directory entries in directory order,
numbering them from `k`. -/
def buildAssetsFrom (dec : Decomp) (data : Bytes) (meta strg : List (Nat × Bytes)) :
    Nat → List AssetDirectoryEntry → Except RError (List Asset)
  | _, [] => .ok []
  | k, en :: rest =>
    buildAsset dec data k en meta strg >>= fun a =>
    buildAssetsFrom dec data meta strg (k + 1) rest >>= fun tl =>
    .ok (a :: tl)

/-- `Package::read`, `pack.rs` lines 138-244: parse the outer PACK form
(version 1), the nested TOCC form (version 3), scan the TOCC chunks, and
assemble one asset per directory entry; a missing directory is a typed
failure.  `dec` is the decompression collaborator. -/
def Package.read (dec : Decomp) (data : Bytes) (e : Endian) : Except RError Package :=
  FormDescriptor.slice data e >>= fun (pack, packData, _) =>
  if pack.id = fourccPACK then
    if pack.version = 1 then
      FormDescriptor.slice packData e >>= fun (tocc, toccData, _) =>
      if tocc.id = fourccTOCC then
        if tocc.version = 3 then
          processTocc e toccData >>= fun st =>
          match st.adir with
          | some adir =>
            buildAssetsFrom dec data st.meta st.strg 0 adir.entries >>= fun as =>
            .ok ⟨as⟩
          | none => .error (.err "Failed to locate asset directory")
        else .error (.err "ensure failed: tocc.version == 3")
      else .error (.err "ensure failed: tocc.id == K_FORM_TOCC")
    else .error (.err "ensure failed: pack.version == 1")
  else .error (.err "ensure failed: pack.id == K_FORM_PACK")

/-! ## The write path (`Package::write`, `pack.rs` lines 246-340)

The source emits placeholder headers/tables and patches them in place
once sizes and offsets are known (form sizes, chunk sizes, the metadata
table, and the asset directory at `adir_pos`).  Every patched region has
a width that is fixed once the entry counts are known, so the final byte
stream is the closed-form concatenation below, with the *patched* values
already in place; the stage definitions mirror the source's passes. -/

/-- Directory entry built for one asset, `pack.rs` lines 251-259: offset
starts at 0 and both sizes record the in-memory payload length — the
writer never compresses. -/
def initialEntry (a : Asset) : AssetDirectoryEntry :=
  ⟨a.kind, a.id, a.version, a.other_version, 0, a.data.length, a.data.length⟩

/-- Sort key of the payload-emission sort, `pack.rs` line 321. -/
def assetKey (p : Nat × Asset) : Nat := p.2.info.orig_offset

/-- Stable insertion: `x` goes after every element whose key is strictly
smaller and before the first element with an equal or larger key. -/
def insertByKey (key : α → Nat) (x : α) : List α → List α
  | [] => [x]
  | y :: ys => if key y < key x then y :: insertByKey key x ys else x :: y :: ys

/-- Model of Rust's `slice::sort_by_key`, which is documented to be a
stable sort: elements with equal keys keep their relative order. -/
def sortByKey (key : α → Nat) : List α → List α
  | [] => []
  | x :: xs => insertByKey key x (sortByKey key xs)

/-- The payload-emission order, `pack.rs` lines 319-321: the asset list
(paired with its directory-entry index) stably sorted by
`AssetInfo.orig_offset`. -/
def sortPairs (pkg : Package) : List (Nat × Asset) :=
  sortByKey assetKey pkg.assets.enum

/-- Offsets recorded while appending payloads, `pack.rs` lines 322-325:
pair each directory-entry index with the absolute position where its
payload lands. -/
def payloadOffsets (base : Nat) : List (Nat × Asset) → List (Nat × Nat)
  | [] => []
  | (i, a) :: rest => (i, base) :: payloadOffsets (base + a.data.length) rest

/-- Offset recorded for directory-entry index `i` (unique in the list). -/
def lookupOff (offs : List (Nat × Nat)) (i : Nat) : Nat :=
  ((offs.find? (fun p => p.1 == i)).map (fun p => p.2)).getD 0

/-- The asset directory after the offset back-patch: original entry
order, each entry's offset replaced by its payload's position. -/
def finalEntriesOf (pkg : Package) (offs : List (Nat × Nat)) : List AssetDirectoryEntry :=
  pkg.assets.enum.map (fun p => { initialEntry p.2 with offset := lookupOff offs p.1 })

/-- binrw-generated writer for one directory entry. -/
def dirEntryBytes (e : Endian) (en : AssetDirectoryEntry) : Bytes :=
  encFourCC en.asset_type ++ enc e 16 en.asset_id ++ enc e 4 en.version ++
  enc e 4 en.other_version ++ enc e 8 en.offset ++ enc e 8 en.decompressed_size ++
  enc e 8 en.size

/-- binrw-generated writer for `AssetDirectory`: the `entry_count` field
is derived from the list (`try_calc`, failing if it overflows u32). -/
def adirBytes (e : Endian) (entries : List AssetDirectoryEntry) : Except RError Bytes :=
  if entries.length < 2 ^ 32 then
    .ok (enc e 4 entries.length ++ (entries.map (dirEntryBytes e)).flatten)
  else .error (.err "directory entry count overflows u32")

def metaEntryBytes (e : Endian) (en : MetadataTableEntry) : Bytes :=
  enc e 16 en.asset_id ++ enc e 4 en.offset

/-- binrw-generated writer for `MetadataTable`. -/
def metaTableBytes (e : Endian) (entries : List MetadataTableEntry) : Except RError Bytes :=
  if entries.length < 2 ^ 32 then
    .ok (enc e 4 entries.length ++ (entries.map (metaEntryBytes e)).flatten)
  else .error (.err "metadata entry count overflows u32")

/-- binrw-generated writer for one string-table entry (tag byte-swapped
on write; `name_length` derived, failing if it overflows u32). -/
def strgEntryBytes (e : Endian) (en : StringTableEntry) : Except RError Bytes :=
  if en.name.length < 2 ^ 32 then
    .ok (encFourCC en.kind.swap ++ enc e 16 en.asset_id ++ enc e 4 en.name.length ++ en.name)
  else .error (.err "name length overflows u32")

/-- binrw-generated writer for `StringTable`. -/
def strgBytes (e : Endian) (entries : List StringTableEntry) : Except RError Bytes :=
  if entries.length < 2 ^ 32 then
    (entries.mapM (strgEntryBytes e)).map (fun l => enc e 4 entries.length ++ l.flatten)
  else .error (.err "string entry count overflows u32")

/-- Modelled from the spec: the framing collaborator's 32-byte form
header as emitted on write (and patched with the final body size). -/
def formHeaderBytes (e : Endian) (fd : FormDescriptor) : Bytes :=
  encFourCC fourccRFRM ++ enc e 8 fd.size ++ enc e 8 fd.unk1 ++ encFourCC fd.id ++
  enc e 4 fd.version ++ enc e 4 fd.other_version

/-- Modelled from the spec: the framing collaborator's 24-byte chunk
header as emitted on write (patched with the final body size). -/
def chunkHeaderBytes (e : Endian) (cd : ChunkDescriptor) : Bytes :=
  encFourCC cd.id ++ enc e 8 cd.size ++ enc e 4 cd.unk ++ enc e 8 cd.skip

/-- Offsets at which successive blobs land when appended after a prefix
of length `base`. -/
def blobOffs (base : Nat) : List Bytes → List Nat
  | [] => []
  | b :: rest => base :: blobOffs (base + b.length) rest

/-- Total length of the first `k` blocks. -/
def sumTake (blocks : List Bytes) (k : Nat) : Nat :=
  ((blocks.take k).map List.length).sum

/-- The metadata entries the writer records, `pack.rs` lines 293-301:
blob `j`'s offset (relative to the chunk body start) is the table's
width — fixed at 4 + 20·count once the count is known — plus the
lengths of the preceding blobs, wrapped to u32 by the `as u32` cast. -/
def metaEntriesOf (blobs : List (Nat × Bytes)) : List MetadataTableEntry :=
  List.zipWith (fun (p : Nat × Bytes) off => (⟨p.1, off % 2 ^ 32⟩ : MetadataTableEntry))
    blobs (blobOffs (4 + 20 * blobs.length) (blobs.map (fun p => p.2)))

/-- The same entry list without the u32 wrap and with an arbitrary base
(used to state facts about the layout; it equals `metaEntriesOf`
whenever every offset fits in u32). -/
def entriesAt (base : Nat) (blobs : List (Nat × Bytes)) : List MetadataTableEntry :=
  List.zipWith (fun (p : Nat × Bytes) off => (⟨p.1, off⟩ : MetadataTableEntry))
    blobs (blobOffs base (blobs.map (fun p => p.2)))

/-- The META chunk body, `pack.rs` lines 287-308: a placeholder table is
written, each blob is appended with its position recorded into its
entry, and the completed table is patched in place — its width is fixed
by the entry count, so the body is table-bytes ++ blobs. -/
def metaLayout (e : Endian) (blobs : List (Nat × Bytes)) :
    Except RError (List MetadataTableEntry × Bytes) :=
  metaTableBytes e (metaEntriesOf blobs) >>= fun table =>
  .ok (metaEntriesOf blobs, table ++ (blobs.map (fun p => p.2)).flatten)

/-- The metadata blobs of the metadata-bearing assets, in asset-list
order (`pack.rs` lines 260-262 and 293-297). -/
def blobsOf (pkg : Package) : List (Nat × Bytes) :=
  (pkg.assets.filter (fun a => a.meta.isSome)).map (fun a => (a.id, a.meta.getD []))

/-- The string-table entries of the name-bearing assets, in asset-list
order (`pack.rs` lines 263-269). -/
def strgEntriesOf (pkg : Package) : List StringTableEntry :=
  pkg.assets.filterMap (fun a =>
    a.name.map (fun nm => (⟨a.kind, a.id, nm⟩ : StringTableEntry)))

/-- The TOCC form body: ADIR, META, STRG chunks in order, each chunk
header patched with its final body size. -/
def toccBodyOf (e : Endian) (adirTable metaBody strgBody : Bytes) : Bytes :=
  chunkHeaderBytes e ⟨fourccADIR, adirTable.length, 1, 0⟩ ++ adirTable ++
  chunkHeaderBytes e ⟨fourccMETA, metaBody.length, 1, 0⟩ ++ metaBody ++
  chunkHeaderBytes e ⟨fourccSTRG, strgBody.length, 1, 0⟩ ++ strgBody

/-- The payload section: each asset's bytes, in ascending-`orig_offset`
(stable) order, `pack.rs` lines 319-325. -/
def payloadOf (pkg : Package) : Bytes :=
  ((sortPairs pkg).map (fun p => p.2.data)).flatten

/-- Absolute position where the payload section starts: two 32-byte form
headers, then three 24-byte chunk headers with the directory table
(4 + 52·n bytes), metadata body and string body between them. -/
def payloadStartOf (pkg : Package) (metaBody strgBody : Bytes) : Nat :=
  32 + 32 + (24 + (4 + 52 * pkg.assets.length) + 24 + metaBody.length + 24 + strgBody.length)

/-- The (entry index, absolute payload position) pairs recorded while
appending payloads. -/
def offsOf (pkg : Package) (metaBody strgBody : Bytes) : List (Nat × Nat) :=
  payloadOffsets (payloadStartOf pkg metaBody strgBody) (sortPairs pkg)

/-- The PACK form body: TOCC form (header patched with its body size)
followed by the payload section. -/
def packBodyOf (e : Endian) (pkg : Package) (adirTable metaBody strgBody : Bytes) : Bytes :=
  formHeaderBytes e ⟨(toccBodyOf e adirTable metaBody strgBody).length, 0, fourccTOCC, 3, 3⟩ ++
  toccBodyOf e adirTable metaBody strgBody ++ payloadOf pkg

/-- The zero padding appended after the outer form to reach the next
16-byte boundary (`(pos + 15) & !15`). -/
def packPad (e : Endian) (pkg : Package) (adirTable metaBody strgBody : Bytes) : Bytes :=
  List.replicate
    ((32 + (packBodyOf e pkg adirTable metaBody strgBody).length + 15) / 16 * 16 -
      (32 + (packBodyOf e pkg adirTable metaBody strgBody).length)) 0

/-- The complete output byte stream: PACK form wrapping the TOCC form
and the payload section, zero-padded to a 16-byte boundary; all patched
regions (form sizes, chunk sizes, directory offsets at `adir_pos`) carry
their final values. -/
def packOut (e : Endian) (pkg : Package) (adirTable metaBody strgBody : Bytes) : Bytes :=
  formHeaderBytes e ⟨(packBodyOf e pkg adirTable metaBody strgBody).length, 0,
    fourccPACK, 1, 1⟩ ++
  packBodyOf e pkg adirTable metaBody strgBody ++ packPad e pkg adirTable metaBody strgBody

/-- Everything the writer emits before the payload section. -/
def packPre (e : Endian) (pkg : Package) (adirTable metaBody strgBody : Bytes) : Bytes :=
  formHeaderBytes e ⟨(packBodyOf e pkg adirTable metaBody strgBody).length, 0,
    fourccPACK, 1, 1⟩ ++
  formHeaderBytes e ⟨(toccBodyOf e adirTable metaBody strgBody).length, 0, fourccTOCC, 3, 3⟩ ++
  toccBodyOf e adirTable metaBody strgBody

/-- Everything the writer emits before the directory table at
`adir_pos`: the two form headers and the ADIR chunk header. -/
def adirPre (e : Endian) (pkg : Package) (adirTable metaBody strgBody : Bytes) : Bytes :=
  formHeaderBytes e ⟨(packBodyOf e pkg adirTable metaBody strgBody).length, 0,
    fourccPACK, 1, 1⟩ ++
  formHeaderBytes e ⟨(toccBodyOf e adirTable metaBody strgBody).length, 0, fourccTOCC, 3, 3⟩ ++
  chunkHeaderBytes e ⟨fourccADIR, adirTable.length, 1, 0⟩

/-- Everything the writer emits after the directory table. -/
def adirPost (e : Endian) (pkg : Package) (adirTable metaBody strgBody : Bytes) : Bytes :=
  chunkHeaderBytes e ⟨fourccMETA, metaBody.length, 1, 0⟩ ++ metaBody ++
  chunkHeaderBytes e ⟨fourccSTRG, strgBody.length, 1, 0⟩ ++ strgBody ++
  payloadOf pkg ++ packPad e pkg adirTable metaBody strgBody

/-- `Package::write` down to its observable artifacts: the back-patched
directory entries and the complete output byte stream.  Follows
`pack.rs` lines 246-339: build the tables from the asset list, emit
PACK(version 1) ⊃ TOCC(version 3) ⊃ ADIR ++ META ++ STRG, then the
payloads — sorted by `orig_offset` — recording each position, patch the
directory at `adir_pos`, and zero-pad the total to a 16-byte boundary.
The placeholder-then-patch passes of the source collapse to this closed
form because every patched region has a fixed width. -/
def writeParts (pkg : Package) (e : Endian) :
    Except RError (List AssetDirectoryEntry × Bytes) :=
  metaLayout e (blobsOf pkg) >>= fun (_, metaBody) =>
  strgBytes e (strgEntriesOf pkg) >>= fun strgBody =>
  adirBytes e (finalEntriesOf pkg (offsOf pkg metaBody strgBody)) >>= fun adirTable =>
  .ok (finalEntriesOf pkg (offsOf pkg metaBody strgBody),
    packOut e pkg adirTable metaBody strgBody)

/-- `Package::write`: just the output byte stream. -/
def Package.write (pkg : Package) (e : Endian) : Except RError Bytes :=
  (writeParts pkg e).map (fun p => p.2)

/-- The derived-length rule of the metadata table stated over indices
(the form the spec gives it in): the next entry's offset minus this
one's, or, for the last entry, the chunk body length minus this entry's
offset. -/
def specSpanLen (chunkLen : Nat) (entries : List MetadataTableEntry) (i : Nat) : Nat :=
  match entries[i + 1]?, entries[i]? with
  | some next, some cur => next.offset - cur.offset
  | none, some cur => chunkLen - cur.offset
  | _, none => 0

/-! ## Concrete fixtures

A minimal well-formed little-endian package: one uncompressed 36-byte
asset (32-byte inner RFRM header + 4 body bytes) at absolute offset 144,
plus single-field variations used to exercise each failure branch. -/

/-- A trivial decompressor instance for evaluating the reader on
fixtures whose assets are stored uncompressed (never invoked there). -/
def dec0 : Decomp := fun _ _ n => List.replicate n 0

def fourccDATA : FourCC := ⟨0x44, 0x41, 0x54, 0x41⟩
def fourccXYZZ : FourCC := ⟨0x58, 0x59, 0x5A, 0x5A⟩

/-- An asset payload: a little-endian inner RFRM header with the given
body size, type tag and versions, followed by 4 body bytes. -/
def innerPayload (size : Nat) (kind : FourCC) (ver over : Nat) : Bytes :=
  formHeaderBytes .little ⟨size, 0, kind, ver, over⟩ ++ [0xAA, 0xBB, 0xCC, 0xDD]

/-- Little-endian package with one directory entry and one payload: PACK
form ⊃ TOCC form ⊃ single ADIR chunk (one entry), payload at offset 144. -/
def fixtureOf (entry : AssetDirectoryEntry) (inner : Bytes) : Bytes :=
  formHeaderBytes .little ⟨112 + inner.length, 0, fourccPACK, 1, 1⟩ ++
  formHeaderBytes .little ⟨80, 0, fourccTOCC, 3, 3⟩ ++
  chunkHeaderBytes .little ⟨fourccADIR, 56, 1, 0⟩ ++
  enc .little 4 1 ++ dirEntryBytes .little entry ++ inner

def dirEntryA : AssetDirectoryEntry := ⟨fourccDATA, 7, 1, 0, 144, 36, 36⟩

def innerPayloadA : Bytes := innerPayload 4 fourccDATA 1 0

/-- The well-formed fixture. -/
def fixtureA : Bytes := fixtureOf dirEntryA innerPayloadA

/-- The asset `read` yields from `fixtureA`. -/
def assetA : Asset :=
  { id := 7, kind := fourccDATA, name := none, data := innerPayloadA,
    meta := none, info := ⟨7, 0, 0, 144⟩, version := 1, other_version := 0 }

/-- `fixtureA` with the payload's inner type tag changed (one byte). -/
def fixtureMutKind : Bytes := fixtureOf dirEntryA (innerPayload 4 ⟨0x44, 0x41, 0x54, 0x42⟩ 1 0)

/-- `fixtureA` with the payload's inner version changed. -/
def fixtureMutVer : Bytes := fixtureOf dirEntryA (innerPayload 4 fourccDATA 2 0)

/-- `fixtureA` with the payload's inner secondary version changed. -/
def fixtureMutOther : Bytes := fixtureOf dirEntryA (innerPayload 4 fourccDATA 1 1)

/-- `fixtureA` with the payload's inner body size changed. -/
def fixtureMutSize : Bytes := fixtureOf dirEntryA (innerPayload 3 fourccDATA 1 0)

/-- `fixtureA` with the directory offset pointing past the end of the
input buffer (offset 200 + size 36 > 180 bytes). -/
def fixtureOOB : Bytes := fixtureOf ⟨fourccDATA, 7, 1, 0, 200, 36, 36⟩ innerPayloadA

/-- `fixtureA` with `decompressed_size` 40 ≠ `size` 36, so the payload is
treated as compressed; its first four bytes (the RFRM magic) read as a
little-endian selector far outside {1,2,3}. -/
def fixtureBadMode : Bytes := fixtureOf ⟨fourccDATA, 7, 1, 0, 144, 40, 36⟩ innerPayloadA

/-- A package whose TOCC body holds a chunk tagged "XYZZ" *followed by* a
completely valid ADIR chunk and payload: read must fail on the unknown
tag rather than skip to the valid directory. -/
def fixtureXYZZ : Bytes :=
  formHeaderBytes .little ⟨176, 0, fourccPACK, 1, 1⟩ ++
  formHeaderBytes .little ⟨108, 0, fourccTOCC, 3, 3⟩ ++
  chunkHeaderBytes .little ⟨fourccXYZZ, 4, 1, 0⟩ ++ [0, 0, 0, 0] ++
  chunkHeaderBytes .little ⟨fourccADIR, 56, 1, 0⟩ ++
  enc .little 4 1 ++ dirEntryBytes .little ⟨fourccDATA, 7, 1, 0, 172, 36, 36⟩ ++
  innerPayload 4 fourccDATA 1 0

/-- `fixtureA` with `decompressed_size` 40 ≠ `size` 2, so the entry is
treated as compressed, and its stored byte range `[144, 146)` — fully
inside the buffer — is shorter than the 4-byte selector prefix read by
`compressed_data[0..4]`. -/
def fixtureShortComp : Bytes := fixtureOf ⟨fourccDATA, 7, 1, 0, 144, 40, 2⟩ innerPayloadA

/-- A package whose META chunk holds a single (hence trivially
ascending) entry whose offset 50 points past the end of its 26-byte
chunk body: the remaining-length subtraction underflows. -/
def fixtureMetaPast : Bytes :=
  formHeaderBytes .little ⟨82, 0, fourccPACK, 1, 1⟩ ++
  formHeaderBytes .little ⟨50, 0, fourccTOCC, 3, 3⟩ ++
  chunkHeaderBytes .little ⟨fourccMETA, 26, 1, 0⟩ ++
  enc .little 4 1 ++ enc .little 16 1 ++ enc .little 4 50 ++ [0, 0]

/-- A package whose META chunk holds two entries with *descending*
offsets (45 then 44): the derived-length subtraction underflows. -/
def fixtureMetaDesc : Bytes :=
  formHeaderBytes .little ⟨102, 0, fourccPACK, 1, 1⟩ ++
  formHeaderBytes .little ⟨70, 0, fourccTOCC, 3, 3⟩ ++
  chunkHeaderBytes .little ⟨fourccMETA, 46, 1, 0⟩ ++
  enc .little 4 2 ++ enc .little 16 1 ++ enc .little 4 45 ++
  enc .little 16 2 ++ enc .little 4 44 ++ [0, 0]

/-- `fixtureA` re-encoded big-endian in every header/table field, with
the asset payload's inner header left little-endian (as the source's
hard-coded `Endian::Little` validation expects). -/
def fixtureBigLE : Bytes :=
  formHeaderBytes .big ⟨148, 0, fourccPACK, 1, 1⟩ ++
  formHeaderBytes .big ⟨80, 0, fourccTOCC, 3, 3⟩ ++
  chunkHeaderBytes .big ⟨fourccADIR, 56, 1, 0⟩ ++
  enc .big 4 1 ++ dirEntryBytes .big dirEntryA ++ innerPayloadA

/-- The fully big-endian package: as `fixtureBigLE` but with the asset
payload's inner header also big-endian — exactly what a uniformly
big-endian reading of the format would require. -/
def fixtureBigBE : Bytes :=
  formHeaderBytes .big ⟨148, 0, fourccPACK, 1, 1⟩ ++
  formHeaderBytes .big ⟨80, 0, fourccTOCC, 3, 3⟩ ++
  chunkHeaderBytes .big ⟨fourccADIR, 56, 1, 0⟩ ++
  enc .big 4 1 ++ dirEntryBytes .big dirEntryA ++
  (formHeaderBytes .big ⟨4, 0, fourccDATA, 1, 0⟩ ++ [0xAA, 0xBB, 0xCC, 0xDD])

/-- `fixtureA`'s asset with a different identity and the same
`orig_offset` (for exercising the stable tie-break of the payload sort). -/
def assetB : Asset := { assetA with id := 8 }

/-- A package with two assets sharing one `orig_offset`. -/
def pkgDup : Package := ⟨[assetA, assetB]⟩

/-- `fixtureA`'s asset with a *smaller* `orig_offset` (100 < 144). -/
def assetC : Asset := { assetA with info := ⟨7, 0, 1, 100⟩ }

/-- A package whose asset-list order (orig offsets 144, 100) differs from
its original on-disk order. -/
def pkgTwo : Package := ⟨[assetA, assetC]⟩

/-- The concrete result of writing the one-asset package (for witnesses). -/
def partsA : List AssetDirectoryEntry × Bytes :=
  ((writeParts ⟨[assetA]⟩ .little).toOption).getD ([], [])

/-- The concrete result of writing `pkgTwo` (for witnesses). -/
def partsTwo : List AssetDirectoryEntry × Bytes :=
  ((writeParts pkgTwo .little).toOption).getD ([], [])

/-- Did the computation return a value (as opposed to any failure)? -/
def isOkE : Except ε α → Bool
  | .ok _ => true
  | .error _ => false

/-- Did the computation end in a modelled Rust panic? -/
def isCrash : Except RError α → Bool
  | .error (.crash _) => true
  | _ => false

/-- Success of an `Except` bind, split into its two stages. -/
theorem bind_ok_iff {x : Except RError α} {f : α → Except RError β} {b : β} :
    (x >>= f) = .ok b ↔ ∃ a, x = .ok a ∧ f a = .ok b := by
  cases x <;> simp [Bind.bind, Except.bind]

/-- Writing the one-asset package and reading it back reproduces the
asset, with its provenance offset now 200 (where its payload landed). -/
theorem write_read_roundtrip :
    (Package.write ⟨[assetA]⟩ .little >>= fun out => Package.read dec0 out .little) =
      .ok ⟨[{ assetA with info := ⟨7, 0, 0, 200⟩ }]⟩ := by decide

/-! ## Claim theorems -/

theorem ok_bind (a : α) (f : α → Except RError β) : (Except.ok a >>= f) = f a := rfl

/-- Success characterization of the Rust slice operation. -/
theorem sliceCrash_ok_iff {data : Bytes} {a b : Nat} {out : Bytes} :
    sliceCrash data a b = .ok out ↔
      (a ≤ b ∧ b ≤ data.length) ∧ out = (data.drop a).take (b - a) := by
  unfold sliceCrash
  split_ifs with h
  · exact ⟨fun he => ⟨h, by injection he with he'; exact he'.symm⟩,
      fun ⟨_, he⟩ => by rw [he]⟩
  · simp [h]

/-- Success characterization of the Rust unsigned subtraction. -/
theorem subCrash_ok_iff {a b s : Nat} :
    subCrash a b = .ok s ↔ b ≤ a ∧ s = a - b := by
  unfold subCrash
  split_ifs with h
  · exact ⟨fun he => ⟨h, by injection he with he'; exact he'.symm⟩,
      fun ⟨_, he⟩ => by rw [he]⟩
  · simp [h]

/-- Unpack a successful `buildAsset` into its stages and result shape. -/
theorem buildAsset_ok {dec : Decomp} {data : Bytes} {idx : Nat}
    {entry : AssetDirectoryEntry} {meta strg : List (Nat × Bytes)} {a : Asset}
    (h : buildAsset dec data idx entry meta strg = .ok a) :
    ∃ mode payload, materialize dec data entry = .ok (mode, payload) ∧
      validateAsset payload entry = .ok () ∧
      a = { id := entry.asset_id, kind := entry.asset_type,
            name := assocFind strg entry.asset_id, data := payload,
            meta := assocFind meta entry.asset_id,
            info := { id := entry.asset_id, compression_mode := mode,
                      entry_idx := idx, orig_offset := entry.offset },
            version := entry.version, other_version := entry.other_version } := by
  simp only [buildAsset, bind_ok_iff] at h
  obtain ⟨⟨mode, payload⟩, hm, h⟩ := h
  simp only [bind_ok_iff] at h
  obtain ⟨u, hv, h⟩ := h
  obtain ⟨⟩ := u
  injection h with h'
  exact ⟨mode, payload, hm, hv, h'.symm⟩

/-- C1: after the payload is materialized, `Package::read` re-parses its
leading bytes as an inner form header and succeeds only if the inner
type tag, version, secondary version, and body size + 32 agree with the
directory entry; and on the concrete well-formed fixture, changing any
one of those four fields of the payload's inner header makes read return
an error while the unmodified fixture parses. -/
theorem c1_inner_header_cross_validation :
    (∀ (dec : Decomp) (data : Bytes) (idx : Nat) (entry : AssetDirectoryEntry)
       (meta strg : List (Nat × Bytes)) (a : Asset),
      buildAsset dec data idx entry meta strg = .ok a →
      ∃ form body rest,
        FormDescriptor.slice a.data Endian.little = .ok (form, body, rest) ∧
        entry.asset_type = form.id ∧ entry.version = form.version ∧
        entry.other_version = form.other_version ∧
        entry.decompressed_size = form.size + 32) ∧
    Package.read dec0 fixtureA .little = .ok ⟨[assetA]⟩ ∧
    Package.read dec0 fixtureMutKind .little =
      .error (.err "ensure failed: asset_type == form.id") ∧
    Package.read dec0 fixtureMutVer .little =
      .error (.err "ensure failed: version == form.version") ∧
    Package.read dec0 fixtureMutOther .little =
      .error (.err "ensure failed: other_version == form.other_version") ∧
    Package.read dec0 fixtureMutSize .little =
      .error (.err "ensure failed: decompressed_size == form.size + 32") := by
  refine ⟨?_, by decide, by decide, by decide, by decide, by decide⟩
  intro dec data idx entry meta strg a h
  obtain ⟨mode, payload, hm, hv, ha⟩ := buildAsset_ok h
  simp only [validateAsset, bind_ok_iff] at hv
  obtain ⟨⟨form, body, rest⟩, hs, hv⟩ := hv
  split_ifs at hv with h1 h2 h3 h4
  subst ha
  exact ⟨form, body, rest, hs, h1, h2, h3, h4⟩

/-- Witness for C1: the general cross-validation fact instantiated on the
concrete fixture's single asset. -/
theorem c1_witness :
    ∃ form body rest,
      FormDescriptor.slice assetA.data Endian.little = .ok (form, body, rest) ∧
      dirEntryA.asset_type = form.id ∧ dirEntryA.version = form.version ∧
      dirEntryA.other_version = form.other_version ∧
      dirEntryA.decompressed_size = form.size + 32 :=
  c1_inner_header_cross_validation.1 dec0 fixtureA 0 dirEntryA [] [] assetA (by decide)

/-- C3: for every directory entry, if `size == decompressed_size` the
asset's payload is exactly the slice `[offset, offset+size)` of the
source buffer and its compression mode is 0; otherwise the first 4 bytes
of the slice, read little-endian, must be a selector in {1,2,3} — any
other value makes read fail with an unsupported-compression-mode error —
and the payload is the decompressor's output over the remaining bytes
into a buffer of exactly `decompressed_size` bytes (given the
decompressor's fill-in-place buffer contract).  Byte-level aliasing of
the borrowed `Cow` is a memory/lifetime property outside the embedding;
the byte content is what is stated. -/
theorem c3_payload_materialization :
    (∀ (dec : Decomp) (data : Bytes) (idx : Nat) (entry : AssetDirectoryEntry)
       (meta strg : List (Nat × Bytes)) (a : Asset),
      buildAsset dec data idx entry meta strg = .ok a →
      (entry.size = entry.decompressed_size →
        a.info.compression_mode = 0 ∧
        sliceCrash data entry.offset (entry.offset + entry.size) = .ok a.data) ∧
      (entry.size ≠ entry.decompressed_size →
        ∃ comp, sliceCrash data entry.offset (entry.offset + entry.size) = .ok comp ∧
          a.info.compression_mode = wordLE (comp.take 4) ∧
          (a.info.compression_mode = 1 ∨ a.info.compression_mode = 2 ∨
            a.info.compression_mode = 3) ∧
          a.data = dec a.info.compression_mode (comp.drop 4) entry.decompressed_size ∧
          ((∀ m l n, (dec m l n).length = n) →
            a.data.length = entry.decompressed_size))) ∧
    (∀ (dec : Decomp) (data : Bytes) (entry : AssetDirectoryEntry) (comp : Bytes),
      entry.size ≠ entry.decompressed_size →
      sliceCrash data entry.offset (entry.offset + entry.size) = .ok comp →
      4 ≤ comp.length →
      ¬(wordLE (comp.take 4) = 1 ∨ wordLE (comp.take 4) = 2 ∨ wordLE (comp.take 4) = 3) →
      materialize dec data entry =
        .error (.err ("Unsupported compression mode " ++ toString (wordLE (comp.take 4))))) ∧
    Package.read dec0 fixtureBadMode .little =
      .error (.err ("Unsupported compression mode " ++ toString 1297237586)) := by
  refine ⟨?_, ?_, by decide⟩
  · intro dec data idx entry meta strg a h
    obtain ⟨mode, payload, hm, hv, ha⟩ := buildAsset_ok h
    constructor
    · intro hsz
      rw [materialize, if_neg (fun hc => hc hsz)] at hm
      rw [bind_ok_iff] at hm
      obtain ⟨p, hp, hm⟩ := hm
      simp only [Except.ok.injEq, Prod.mk.injEq] at hm
      obtain ⟨h1, h2⟩ := hm
      subst h1
      subst h2
      subst ha
      exact ⟨rfl, hp⟩
    · intro hsz
      rw [materialize, if_pos hsz] at hm
      rw [bind_ok_iff] at hm
      obtain ⟨comp, hcomp, hm⟩ := hm
      rw [bind_ok_iff] at hm
      obtain ⟨sel, hsel, hm⟩ := hm
      obtain ⟨hb, hselEq⟩ := sliceCrash_ok_iff.mp hsel
      rw [show (4 - 0) = 4 from rfl, List.drop_zero] at hselEq
      subst hselEq
      simp only [word] at hm
      split_ifs at hm with hmode123
      · simp only [Except.ok.injEq, Prod.mk.injEq] at hm
        obtain ⟨h1, h2⟩ := hm
        subst h1
        subst h2
        subst ha
        refine ⟨comp, hcomp, rfl, hmode123, rfl, ?_⟩
        intro hdec
        exact hdec _ _ _
  · intro dec data entry comp hne hcomp h4 hbad
    rw [materialize, if_pos hne, hcomp, ok_bind]
    have hsel : sliceCrash comp 0 4 = .ok (comp.take 4) := by
      unfold sliceCrash
      rw [if_pos ⟨Nat.zero_le 4, h4⟩]
      simp
    rw [hsel, ok_bind]
    simp only [word]
    rw [if_neg hbad]

/-- Witness for C3: the uncompressed branch evaluated on the concrete
fixture's single asset. -/
theorem c3_witness :
    assetA.info.compression_mode = 0 ∧
    sliceCrash fixtureA dirEntryA.offset (dirEntryA.offset + dirEntryA.size) = .ok assetA.data :=
  (c3_payload_materialization.1 dec0 fixtureA 0 dirEntryA [] [] assetA (by decide)).1 (by decide)

/-- Per-index description of a successful directory-driven assembly loop. -/
theorem buildAssetsFrom_spec (dec : Decomp) (data : Bytes) (meta strg : List (Nat × Bytes)) :
    ∀ (entries : List AssetDirectoryEntry) (k : Nat) (l : List Asset),
      buildAssetsFrom dec data meta strg k entries = .ok l →
      l.length = entries.length ∧
      ∀ j (hj : j < entries.length) (hl : j < l.length),
        buildAsset dec data (k + j) (entries.get ⟨j, hj⟩) meta strg = .ok (l.get ⟨j, hl⟩) := by
  intro entries
  induction entries with
  | nil =>
    intro k l h
    simp only [buildAssetsFrom] at h
    injection h with h'
    subst h'
    exact ⟨rfl, fun j hj => absurd hj (by simp)⟩
  | cons en rest ih =>
    intro k l h
    simp only [buildAssetsFrom, bind_ok_iff] at h
    obtain ⟨a, ha, h⟩ := h
    obtain ⟨tl, htl, h⟩ := h
    injection h with h'
    subst h'
    obtain ⟨hlen, hget⟩ := ih (k + 1) tl htl
    refine ⟨by simp [hlen], ?_⟩
    intro j hj hl
    match j with
    | 0 => simpa using ha
    | j + 1 =>
      have harith : k + (j + 1) = (k + 1) + j := by omega
      have hj' : j < rest.length := by simpa using hj
      have hl' : j < tl.length := by simpa using hl
      have hh := hget j hj' hl'
      rw [harith]
      simpa using hh

/-- C7: for every successfully read package, the asset list is in exactly
the same order as the parsed directory's entries, and the asset at
position `i` carries `entry_idx = i`, `orig_offset` equal to its
directory entry's offset field, and the entry's identity, type tag and
versions. -/
theorem c7_directory_order :
    ∀ (dec : Decomp) (data : Bytes) (e : Endian) (pkg : Package),
      Package.read dec data e = .ok pkg →
      ∃ pack packData prest tocc toccData trest st adir,
        FormDescriptor.slice data e = .ok (pack, packData, prest) ∧
        FormDescriptor.slice packData e = .ok (tocc, toccData, trest) ∧
        processTocc e toccData = .ok st ∧
        st.adir = some adir ∧
        pkg.assets.length = adir.entries.length ∧
        ∀ i (hi : i < adir.entries.length) (hp : i < pkg.assets.length),
          (pkg.assets.get ⟨i, hp⟩).info.entry_idx = i ∧
          (pkg.assets.get ⟨i, hp⟩).info.orig_offset = (adir.entries.get ⟨i, hi⟩).offset ∧
          (pkg.assets.get ⟨i, hp⟩).id = (adir.entries.get ⟨i, hi⟩).asset_id ∧
          (pkg.assets.get ⟨i, hp⟩).kind = (adir.entries.get ⟨i, hi⟩).asset_type ∧
          (pkg.assets.get ⟨i, hp⟩).version = (adir.entries.get ⟨i, hi⟩).version ∧
          (pkg.assets.get ⟨i, hp⟩).other_version = (adir.entries.get ⟨i, hi⟩).other_version := by
  intro dec data e pkg h
  simp only [Package.read, bind_ok_iff] at h
  obtain ⟨⟨pack, packData, prest⟩, h1, h⟩ := h
  split_ifs at h with hpid hpver
  simp only [bind_ok_iff] at h
  obtain ⟨⟨tocc, toccData, trest⟩, h2, h⟩ := h
  split_ifs at h with htid htver
  simp only [bind_ok_iff] at h
  obtain ⟨st, h5, h⟩ := h
  cases hadir : st.adir with
  | none => rw [hadir] at h; exact absurd h (by simp)
  | some adir =>
    rw [hadir] at h
    simp only [bind_ok_iff] at h
    obtain ⟨as, h6, h⟩ := h
    injection h with h'
    subst h'
    obtain ⟨hlen, hget⟩ := buildAssetsFrom_spec dec data st.meta st.strg adir.entries 0 as h6
    refine ⟨pack, packData, prest, tocc, toccData, trest, st, adir,
      h1, h2, h5, hadir, hlen, ?_⟩
    intro i hi hp
    have hb := hget i hi hp
    rw [Nat.zero_add] at hb
    obtain ⟨mode, payload, hm, hv, ha⟩ := buildAsset_ok hb
    exact ⟨congrArg (fun x => x.info.entry_idx) ha,
      congrArg (fun x => x.info.orig_offset) ha,
      congrArg (fun x => x.id) ha,
      congrArg (fun x => x.kind) ha,
      congrArg (fun x => x.version) ha,
      congrArg (fun x => x.other_version) ha⟩

/-- Witness for C7: the order/provenance facts instantiated on the
concrete fixture. -/
theorem c7_witness :
    ∃ pack packData prest tocc toccData trest st adir,
      FormDescriptor.slice fixtureA Endian.little = .ok (pack, packData, prest) ∧
      FormDescriptor.slice packData Endian.little = .ok (tocc, toccData, trest) ∧
      processTocc Endian.little toccData = .ok st ∧
      st.adir = some adir ∧
      (Package.mk [assetA]).assets.length = adir.entries.length ∧
      ∀ i (hi : i < adir.entries.length) (hp : i < (Package.mk [assetA]).assets.length),
        ((Package.mk [assetA]).assets.get ⟨i, hp⟩).info.entry_idx = i ∧
        ((Package.mk [assetA]).assets.get ⟨i, hp⟩).info.orig_offset =
          (adir.entries.get ⟨i, hi⟩).offset ∧
        ((Package.mk [assetA]).assets.get ⟨i, hp⟩).id = (adir.entries.get ⟨i, hi⟩).asset_id ∧
        ((Package.mk [assetA]).assets.get ⟨i, hp⟩).kind = (adir.entries.get ⟨i, hi⟩).asset_type ∧
        ((Package.mk [assetA]).assets.get ⟨i, hp⟩).version = (adir.entries.get ⟨i, hi⟩).version ∧
        ((Package.mk [assetA]).assets.get ⟨i, hp⟩).other_version =
          (adir.entries.get ⟨i, hi⟩).other_version :=
  c7_directory_order dec0 fixtureA Endian.little ⟨[assetA]⟩ (by decide)

/-- C8: if the table-of-contents body contains a chunk whose tag is not
one of the three recognized kinds, `Package::read` fails immediately with
an error naming the unrecognized tag and produces no partial `Package`:
the chunk dispatch errors on every unrecognized tag, and on a concrete
package whose TOCC body holds an "XYZZ" chunk *followed by a completely
valid directory chunk and payload*, read still returns the
unknown-section error — the chunk is never skipped. -/
theorem c8_unknown_chunk_rejected :
    (∀ (e : Endian) (st : TocState) (cid : FourCC) (chunkData : Bytes),
      cid ≠ fourccADIR → cid ≠ fourccMETA → cid ≠ fourccSTRG →
      processChunk e st cid chunkData =
        .error (.err ("Unhandled TOCC chunk " ++ fourccMsg cid))) ∧
    Package.read dec0 fixtureXYZZ .little =
      .error (.err ("Unhandled TOCC chunk " ++ fourccMsg fourccXYZZ)) := by
  constructor
  · intro e st cid chunkData h1 h2 h3
    rw [processChunk, if_neg h1, if_neg h2, if_neg h3]
  · decide

/-- Witness for C8: the dispatch rejects the concrete tag "XYZZ". -/
theorem c8_witness :
    processChunk .little ⟨none, [], []⟩ fourccXYZZ [] =
      .error (.err ("Unhandled TOCC chunk " ++ fourccMsg fourccXYZZ)) :=
  c8_unknown_chunk_rejected.1 .little ⟨none, [], []⟩ fourccXYZZ []
    (by decide) (by decide) (by decide)

/-- C4 counterexample: the claim says no input can make `Package::read`
terminate otherwise than by returning a `Package` or a typed error value,
in particular when a directory entry's `[offset, offset+size)` range
exceeds the input buffer.  On the concrete package whose single directory
entry points at `[200, 236)` of a 180-byte buffer, the call terminates
with a panic (out-of-bounds slice), not an error return. -/
theorem c4_counterexample :
    isCrash (Package.read dec0 fixtureOOB .little) = true := by decide

/-- C4 amended: for every input and endianness `Package::read` returns a
value synchronously — a `Package`, a typed error, or a modelled panic —
but not every failure is a typed error: the unchecked slice indexing and
unsigned subtractions in payload slicing (`pack.rs` lines 195-198) and
metadata span derivation (lines 166-175) panic.  Concretely, read
panics when a directory entry's `[offset, offset+size)` range exceeds
the input buffer, when a compressed entry's in-range stored bytes are
shorter than the 4-byte selector prefix, and when a metadata entry's
offsets are non-ascending or point past the end of the chunk body;
conversely, payload materialization cannot panic for an entry whose
range lies within the buffer and holds at least 4 bytes when compressed,
and metadata span derivation always succeeds when the offsets are
ascending and within the chunk body. -/
theorem c4_amended_read_panics :
    (∀ (dec : Decomp) (data : Bytes) (e : Endian),
      (∃ pkg, Package.read dec data e = .ok pkg) ∨
      (∃ msg, Package.read dec data e = .error (.err msg)) ∨
      (∃ msg, Package.read dec data e = .error (.crash msg))) ∧
    (∀ (dec : Decomp) (data : Bytes) (entry : AssetDirectoryEntry),
      entry.offset + entry.size ≤ data.length →
      (entry.size ≠ entry.decompressed_size → 4 ≤ entry.size) →
      isCrash (materialize dec data entry) = false) ∧
    (∀ (chunkData : Bytes) (entries : List MetadataTableEntry),
      List.Pairwise (fun a b => a.offset ≤ b.offset) entries →
      (∀ en ∈ entries, en.offset ≤ chunkData.length) →
      ∃ spans, metaSpans chunkData entries = .ok spans) ∧
    Package.read dec0 fixtureOOB .little = .error (.crash "slice index out of range") ∧
    Package.read dec0 fixtureShortComp .little = .error (.crash "slice index out of range") ∧
    Package.read dec0 fixtureMetaDesc .little =
      .error (.crash "attempt to subtract with overflow") ∧
    Package.read dec0 fixtureMetaPast .little =
      .error (.crash "attempt to subtract with overflow") := by
  refine ⟨?_, ?_, ?_, by decide, by decide, by decide, by decide⟩
  · intro dec data e
    cases h : Package.read dec data e with
    | ok pkg => exact Or.inl ⟨pkg, rfl⟩
    | error er =>
      cases er with
      | err m => exact Or.inr (Or.inl ⟨m, rfl⟩)
      | crash m => exact Or.inr (Or.inr ⟨m, rfl⟩)
  · intro dec data entry hb h4
    have hs : sliceCrash data entry.offset (entry.offset + entry.size) =
        .ok ((data.drop entry.offset).take (entry.offset + entry.size - entry.offset)) := by
      unfold sliceCrash
      rw [if_pos ⟨Nat.le_add_right _ _, hb⟩]
    by_cases hsz : entry.size = entry.decompressed_size
    · rw [materialize, if_neg (fun hc => hc hsz), hs, ok_bind]
      rfl
    · rw [materialize, if_pos hsz, hs, ok_bind]
      have hlen : ((data.drop entry.offset).take
          (entry.offset + entry.size - entry.offset)).length = entry.size := by
        rw [List.length_take, List.length_drop, Nat.add_sub_cancel_left]
        omega
      have hs2 : sliceCrash ((data.drop entry.offset).take
          (entry.offset + entry.size - entry.offset)) 0 4 =
          .ok ((((data.drop entry.offset).take
            (entry.offset + entry.size - entry.offset)).drop 0).take 4) := by
        unfold sliceCrash
        rw [if_pos ⟨by omega, by rw [hlen]; exact h4 hsz⟩]
      rw [hs2, ok_bind]
      simp only [word]
      split_ifs with hm
      · rfl
      · rfl
  · intro chunkData entries
    induction entries with
    | nil => intro _ _; exact ⟨[], rfl⟩
    | cons en rest ih =>
      intro hpw hbnd
      obtain ⟨hy, hpw'⟩ := List.pairwise_cons.mp hpw
      have hben : en.offset ≤ chunkData.length := hbnd en (List.mem_cons_self en rest)
      have hbnd' : ∀ b ∈ rest, b.offset ≤ chunkData.length :=
        fun b hb => hbnd b (List.mem_cons_of_mem en hb)
      obtain ⟨spans, hspans⟩ := ih hpw' hbnd'
      cases rest with
      | nil =>
        have hsub : subCrash chunkData.length en.offset =
            .ok (chunkData.length - en.offset) := by
          unfold subCrash
          rw [if_pos hben]
        have hslice : sliceCrash chunkData en.offset
            (en.offset + (chunkData.length - en.offset)) =
            .ok ((chunkData.drop en.offset).take
              (en.offset + (chunkData.length - en.offset) - en.offset)) := by
          unfold sliceCrash
          rw [if_pos ⟨Nat.le_add_right _ _, by omega⟩]
        refine ⟨[(en.asset_id, (chunkData.drop en.offset).take
          (en.offset + (chunkData.length - en.offset) - en.offset))], ?_⟩
        show (subCrash chunkData.length en.offset >>= fun size =>
            sliceCrash chunkData en.offset (en.offset + size) >>= fun blob =>
            metaSpans chunkData [] >>= fun tl =>
            Except.ok ((en.asset_id, blob) :: tl)) =
          Except.ok [(en.asset_id, (chunkData.drop en.offset).take
            (en.offset + (chunkData.length - en.offset) - en.offset))]
        rw [hsub, ok_bind, hslice, ok_bind,
          show metaSpans chunkData [] =
            (Except.ok [] : Except RError (List (Nat × Bytes))) from rfl, ok_bind]
      | cons nx rest' =>
        have hnx : en.offset ≤ nx.offset := hy nx (List.mem_cons_self nx rest')
        have hbnx : nx.offset ≤ chunkData.length :=
          hbnd' nx (List.mem_cons_self nx rest')
        have hsub : subCrash nx.offset en.offset = .ok (nx.offset - en.offset) := by
          unfold subCrash
          rw [if_pos hnx]
        have hslice : sliceCrash chunkData en.offset
            (en.offset + (nx.offset - en.offset)) =
            .ok ((chunkData.drop en.offset).take
              (en.offset + (nx.offset - en.offset) - en.offset)) := by
          unfold sliceCrash
          rw [if_pos ⟨Nat.le_add_right _ _, by omega⟩]
        refine ⟨(en.asset_id, (chunkData.drop en.offset).take
          (en.offset + (nx.offset - en.offset) - en.offset)) :: spans, ?_⟩
        show (subCrash nx.offset en.offset >>= fun size =>
            sliceCrash chunkData en.offset (en.offset + size) >>= fun blob =>
            metaSpans chunkData (nx :: rest') >>= fun tl =>
            Except.ok ((en.asset_id, blob) :: tl)) =
          Except.ok ((en.asset_id, (chunkData.drop en.offset).take
            (en.offset + (nx.offset - en.offset) - en.offset)) :: spans)
        rw [hsub, ok_bind, hslice, ok_bind, hspans, ok_bind]

/-- Witness for C4's amendment: the no-panic guarantee of payload
materialization applied to the concrete in-bounds fixture entry. -/
theorem c4_witness : isCrash (materialize dec0 fixtureA dirEntryA) = false :=
  c4_amended_read_panics.2.1 dec0 fixtureA dirEntryA (by decide) (by decide)

/-- C9 counterexample: the claim says every multi-byte field other than
the compression-mode selector — including the inner per-asset form header
— is decoded with the caller-supplied endianness, so the fully big-endian
package `fixtureBigBE` (whose inner header fields are big-endian and
consistent with its directory entry) would have to parse successfully
under `Endian::Big`.  It does not: read fails, because the source
hard-codes `Endian::Little` for the inner form header. -/
theorem c9_counterexample :
    isOkE (Package.read dec0 fixtureBigBE .big) = false := by decide

/-- C9 amended: every multi-byte field of the forms, chunks and tables is
decoded using the caller-supplied endianness, but *two* reads are
little-endian-fixed: the 4-byte compression-mode selector and the inner
per-asset form header used for cross-validation.  Concretely, under
`Endian::Big` the package whose headers and tables are all big-endian
parses successfully exactly when its inner per-asset header is
little-endian, and fails when the inner header is big-endian. -/
theorem c9_amended_inner_header_little :
    Package.read dec0 fixtureBigLE .big = .ok ⟨[assetA]⟩ ∧
    Package.read dec0 fixtureBigBE .big = .error (.err "form header") := by
  constructor <;> decide

theorem length_bytesLE (n : Nat) : ∀ v, (bytesLE n v).length = n := by
  induction n with
  | zero => intro v; rfl
  | succ m ih => intro v; simp [bytesLE, ih]

theorem length_enc (e : Endian) (n v : Nat) : (enc e n v).length = n := by
  cases e <;> simp [enc, length_bytesLE]

theorem length_metaEntryBytes (e : Endian) (en : MetadataTableEntry) :
    (metaEntryBytes e en).length = 20 := by
  simp [metaEntryBytes, length_enc]

theorem flatten_length_uniform :
    ∀ (l : List Bytes) (k : Nat), (∀ b ∈ l, b.length = k) → l.flatten.length = k * l.length := by
  intro l k
  induction l with
  | nil => simp
  | cons b bs ih =>
    intro h
    have hb := h b (List.mem_cons_self b bs)
    have hr := ih (fun x hx => h x (List.mem_cons_of_mem b hx))
    simp [hb, hr]
    ring

theorem blobOffs_length : ∀ (l : List Bytes) (base : Nat), (blobOffs base l).length = l.length := by
  intro l
  induction l with
  | nil => intro base; rfl
  | cons b bs ih => intro base; simp [blobOffs, ih]

theorem blobOffs_mem_le :
    ∀ (l : List Bytes) (base x : Nat), x ∈ blobOffs base l →
      x ≤ base + (l.map List.length).sum := by
  intro l
  induction l with
  | nil => intro base x hx; simp [blobOffs] at hx
  | cons b bs ih =>
    intro base x hx
    simp only [blobOffs, List.mem_cons] at hx
    rcases hx with rfl | hx
    · simp
    · have := ih (base + b.length) x hx
      simp only [List.map_cons, List.sum_cons]
      omega

/-- The metadata offsets are stored through an `as u32` cast; below the
u32 range the cast is the identity. -/
theorem zipWith_offs_mod (blobs : List (Nat × Bytes)) :
    ∀ (offs : List Nat), (∀ x ∈ offs, x < 2 ^ 32) →
      List.zipWith (fun (p : Nat × Bytes) off => (⟨p.1, off % 2 ^ 32⟩ : MetadataTableEntry))
        blobs offs =
      List.zipWith (fun (p : Nat × Bytes) off => (⟨p.1, off⟩ : MetadataTableEntry)) blobs offs := by
  induction blobs with
  | nil => intro offs h; simp
  | cons b bs ih =>
    intro offs h
    cases offs with
    | nil => simp
    | cons o os =>
      simp only [List.zipWith]
      rw [Nat.mod_eq_of_lt (h o (List.mem_cons_self o os))]
      rw [ih os (fun x hx => h x (List.mem_cons_of_mem o hx))]

/-- Per-index description of a successful metadata span derivation: the
blob recorded for entry `i` is exactly the slice of the chunk body
starting at that entry's offset whose length is the spec's
next-minus-this (or remaining-body) formula. -/
theorem metaSpans_formula :
    ∀ (entries : List MetadataTableEntry) (chunkData : Bytes) (spans : List (Nat × Bytes)),
      metaSpans chunkData entries = .ok spans →
      spans.length = entries.length ∧
      ∀ i (hi : i < entries.length) (hs : i < spans.length),
        (spans.get ⟨i, hs⟩).1 = (entries.get ⟨i, hi⟩).asset_id ∧
        (spans.get ⟨i, hs⟩).2 = (chunkData.drop (entries.get ⟨i, hi⟩).offset).take
          (specSpanLen chunkData.length entries i) := by
  intro entries
  induction entries with
  | nil =>
    intro chunkData spans h
    simp only [metaSpans] at h
    injection h with h'
    subst h'
    exact ⟨rfl, fun i hi => absurd hi (by simp)⟩
  | cons en rest ih =>
    intro chunkData spans h
    simp only [metaSpans, bind_ok_iff] at h
    obtain ⟨size, hsz, h⟩ := h
    obtain ⟨blob, hblob, h⟩ := h
    obtain ⟨tl, htl, h⟩ := h
    injection h with h'
    subst h'
    obtain ⟨hlen, hget⟩ := ih chunkData tl htl
    refine ⟨by simp [hlen], ?_⟩
    intro i hi hs
    match i with
    | 0 =>
      refine ⟨rfl, ?_⟩
      obtain ⟨hb, hblobEq⟩ := sliceCrash_ok_iff.mp hblob
      rw [Nat.add_sub_cancel_left] at hblobEq
      cases rest with
      | nil =>
        obtain ⟨hle, hszEq⟩ := subCrash_ok_iff.mp hsz
        subst hszEq
        simpa [specSpanLen] using hblobEq
      | cons nx rest' =>
        obtain ⟨hle, hszEq⟩ := subCrash_ok_iff.mp hsz
        subst hszEq
        simpa [specSpanLen] using hblobEq
    | i + 1 =>
      have hi' : i < rest.length := by simpa using hi
      have hs' : i < tl.length := by simpa using hs
      have hh := hget i hi' hs'
      have hspan : specSpanLen chunkData.length (en :: rest) (i + 1) =
          specSpanLen chunkData.length rest i := by
        simp [specSpanLen]
      simpa [hspan] using hh

/-- Core of the metadata round trip: deriving spans from the offsets the
writer records over the body the writer lays out reproduces the blobs. -/
theorem metaSpans_layout :
    ∀ (blobs : List (Nat × Bytes)) (chunkData : Bytes) (base : Nat),
      chunkData.length = base + ((blobs.map (fun p => p.2.length)).sum) →
      chunkData.drop base = (blobs.map (fun p => p.2)).flatten →
      metaSpans chunkData (entriesAt base blobs) = .ok blobs := by
  intro blobs
  induction blobs with
  | nil => intro chunkData base h1 h2; rfl
  | cons b bs ih =>
    intro chunkData base h1 h2
    obtain ⟨bid, bb⟩ := b
    have hsum : chunkData.length = base + bb.length + (bs.map (fun p => p.2.length)).sum := by
      simp only [List.map_cons, List.sum_cons] at h1
      omega
    have hdropbase : chunkData.drop base = bb ++ (bs.map (fun p => p.2)).flatten := by
      simpa using h2
    have hdrop2 : chunkData.drop (base + bb.length) = (bs.map (fun p => p.2)).flatten := by
      have hd : chunkData.drop (base + bb.length) = (chunkData.drop base).drop bb.length := by
        rw [List.drop_drop, Nat.add_comm]
      rw [hd, hdropbase]
      exact List.drop_left bb _
    have hslice : sliceCrash chunkData base (base + bb.length) = .ok bb := by
      rw [sliceCrash_ok_iff]
      refine ⟨⟨by omega, by omega⟩, ?_⟩
      rw [Nat.add_sub_cancel_left, hdropbase]
      exact (List.take_left bb _).symm
    cases bs with
    | nil =>
      have hsub : subCrash chunkData.length base = .ok bb.length := by
        rw [subCrash_ok_iff]
        constructor
        · omega
        · simp only [List.map_nil, List.sum_nil] at hsum
          omega
      simp only [entriesAt, List.map_cons, List.map_nil, blobOffs, List.zipWith, metaSpans]
      rw [hsub, ok_bind, hslice, ok_bind]
      rfl
    | cons b2 bs' =>
      have hsub : subCrash (base + bb.length) base = .ok bb.length := by
        rw [subCrash_ok_iff]
        exact ⟨by omega, by omega⟩
      have hrec := ih chunkData (base + bb.length) hsum hdrop2
      simp only [entriesAt, List.map_cons, blobOffs, List.zipWith, metaSpans] at hrec ⊢
      rw [hsub, ok_bind, hslice, ok_bind, hrec, ok_bind]

/-- C6: when read decodes a metadata chunk, the byte span recorded for
entry `i` of the chunk body is `[o_i, o_i + len_i)` with
`len_i = o_(i+1) - o_i` for `i < N` and `len_N = L - o_N`; and storing
metadata blobs through the writer's layout (table followed by blobs,
offsets recorded at append positions) and re-deriving the spans this way
reproduces the blobs' bytes exactly. -/
theorem c6_metadata_span_roundtrip :
    (∀ (chunkData : Bytes) (entries : List MetadataTableEntry) (spans : List (Nat × Bytes)),
      metaSpans chunkData entries = .ok spans →
      spans.length = entries.length ∧
      ∀ i (hi : i < entries.length) (hs : i < spans.length),
        (spans.get ⟨i, hs⟩).1 = (entries.get ⟨i, hi⟩).asset_id ∧
        (spans.get ⟨i, hs⟩).2 = (chunkData.drop (entries.get ⟨i, hi⟩).offset).take
          (specSpanLen chunkData.length entries i)) ∧
    (∀ (e : Endian) (blobs : List (Nat × Bytes)),
      4 + 20 * blobs.length + ((blobs.map (fun p => p.2.length)).sum) < 2 ^ 32 →
      ∃ entries body, metaLayout e blobs = .ok (entries, body) ∧
        metaSpans body entries = .ok blobs) := by
  constructor
  · exact fun chunkData entries spans h => metaSpans_formula entries chunkData spans h
  · intro e blobs hbound
    have hoffs : ∀ x ∈ blobOffs (4 + 20 * blobs.length) (blobs.map (fun p => p.2)), x < 2 ^ 32 := by
      intro x hx
      have hle := blobOffs_mem_le _ _ _ hx
      have hmm : ((blobs.map (fun p => p.2)).map List.length).sum =
          (blobs.map (fun p => p.2.length)).sum := by
        rw [List.map_map]
        rfl
      rw [hmm] at hle
      omega
    have hE : metaEntriesOf blobs = entriesAt (4 + 20 * blobs.length) blobs := by
      unfold metaEntriesOf entriesAt
      exact zipWith_offs_mod blobs _ hoffs
    have hpurelen : (entriesAt (4 + 20 * blobs.length) blobs).length = blobs.length := by
      simp [entriesAt, List.length_zipWith, blobOffs_length]
    have hcnt : (metaEntriesOf blobs).length < 2 ^ 32 := by
      rw [hE, hpurelen]
      omega
    have huniform : ∀ bbytes ∈ (entriesAt (4 + 20 * blobs.length) blobs).map (metaEntryBytes e),
        bbytes.length = 20 := by
      intro bbytes hb
      obtain ⟨en, _, rfl⟩ := List.mem_map.mp hb
      exact length_metaEntryBytes e en
    have htbl : (enc e 4 (entriesAt (4 + 20 * blobs.length) blobs).length ++
        ((entriesAt (4 + 20 * blobs.length) blobs).map (metaEntryBytes e)).flatten).length =
        4 + 20 * blobs.length := by
      rw [List.length_append, length_enc, flatten_length_uniform _ 20 huniform,
        List.length_map, hpurelen]
    refine ⟨metaEntriesOf blobs,
      (enc e 4 (metaEntriesOf blobs).length ++
        ((metaEntriesOf blobs).map (metaEntryBytes e)).flatten) ++
        (blobs.map (fun p => p.2)).flatten, ?_, ?_⟩
    · simp only [metaLayout, metaTableBytes]
      rw [if_pos hcnt, ok_bind]
    · rw [hE]
      apply metaSpans_layout
      · rw [List.length_append, htbl]
        congr 1
        rw [List.length_flatten, List.map_map]
        rfl
      · have hdl := List.drop_left
          (enc e 4 (entriesAt (4 + 20 * blobs.length) blobs).length ++
            ((entriesAt (4 + 20 * blobs.length) blobs).map (metaEntryBytes e)).flatten)
          ((blobs.map (fun p => p.2)).flatten)
        rw [htbl] at hdl
        exact hdl

/-- Witness for C6: the layout/derive round trip on one concrete blob. -/
theorem c6_witness :
    ∃ entries body, metaLayout .little [(1, [5, 6])] = .ok (entries, body) ∧
      metaSpans body entries = .ok [(1, [5, 6])] :=
  c6_metadata_span_roundtrip.2 .little [(1, [5, 6])] (by decide)

theorem insertByKey_perm (key : α → Nat) (x : α) :
    ∀ l, List.Perm (insertByKey key x l) (x :: l) := by
  intro l
  induction l with
  | nil => exact List.Perm.refl _
  | cons y ys ih =>
    simp only [insertByKey]
    split_ifs with h
    · exact (ih.cons y).trans (List.Perm.swap x y ys)
    · exact List.Perm.refl _

theorem sortByKey_perm (key : α → Nat) : ∀ l, List.Perm (sortByKey key l) l := by
  intro l
  induction l with
  | nil => exact List.Perm.refl _
  | cons x xs ih =>
    simp only [sortByKey]
    exact (insertByKey_perm key x _).trans (ih.cons x)

theorem insertByKey_sorted (key : α → Nat) (x : α) :
    ∀ l, List.Pairwise (fun a b => key a ≤ key b) l →
      List.Pairwise (fun a b => key a ≤ key b) (insertByKey key x l) := by
  intro l
  induction l with
  | nil => intro _; simp [insertByKey]
  | cons y ys ih =>
    intro hp
    obtain ⟨hy, hys⟩ := List.pairwise_cons.mp hp
    simp only [insertByKey]
    split_ifs with h
    · refine List.pairwise_cons.mpr ⟨?_, ih hys⟩
      intro b hb
      have hmem := (insertByKey_perm key x ys).mem_iff.mp hb
      rcases List.mem_cons.mp hmem with rfl | hbys
      · exact Nat.le_of_lt h
      · exact hy b hbys
    · refine List.pairwise_cons.mpr ⟨?_, hp⟩
      intro b hb
      rcases List.mem_cons.mp hb with rfl | hbys
      · exact Nat.le_of_not_lt h
      · exact le_trans (Nat.le_of_not_lt h) (hy b hbys)

theorem sortByKey_sorted (key : α → Nat) :
    ∀ l, List.Pairwise (fun a b => key a ≤ key b) (sortByKey key l) := by
  intro l
  induction l with
  | nil => exact List.Pairwise.nil
  | cons x xs ih =>
    simp only [sortByKey]
    exact insertByKey_sorted key x _ ih

theorem filter_insertByKey (key : α → Nat) (c : Nat) (x : α) :
    ∀ l, (insertByKey key x l).filter (fun y => key y == c) =
      (x :: l).filter (fun y => key y == c) := by
  intro l
  induction l with
  | nil => rfl
  | cons y ys ih =>
    simp only [insertByKey]
    split_ifs with h
    · by_cases hx : key x = c
      · have hyc : ¬(key y = c) := by omega
        simp [List.filter_cons, hx, hyc, ih]
      · simp [List.filter_cons, hx, ih]
    · rfl

theorem sortByKey_filter (key : α → Nat) (c : Nat) :
    ∀ l, (sortByKey key l).filter (fun y => key y == c) =
      l.filter (fun y => key y == c) := by
  intro l
  induction l with
  | nil => rfl
  | cons x xs ih =>
    simp only [sortByKey]
    rw [filter_insertByKey]
    simp [List.filter_cons, ih]

theorem sortByKey_all_eq (key : α → Nat) (c : Nat) :
    ∀ l, (∀ x ∈ l, key x = c) → sortByKey key l = l := by
  intro l
  induction l with
  | nil => intro _; rfl
  | cons x xs ih =>
    intro h
    simp only [sortByKey]
    rw [ih (fun y hy => h y (List.mem_cons_of_mem x hy))]
    cases xs with
    | nil => rfl
    | cons y ys =>
      simp only [insertByKey]
      rw [if_neg]
      have h1 := h x (List.mem_cons_self x (y :: ys))
      have h2 := h y (by simp)
      omega

theorem length_encFourCC (f : FourCC) : (encFourCC f).length = 4 := rfl

theorem length_formHeaderBytes (e : Endian) (fd : FormDescriptor) :
    (formHeaderBytes e fd).length = 32 := by
  simp [formHeaderBytes, encFourCC, length_enc]

theorem length_chunkHeaderBytes (e : Endian) (cd : ChunkDescriptor) :
    (chunkHeaderBytes e cd).length = 24 := by
  simp [chunkHeaderBytes, encFourCC, length_enc]

theorem length_dirEntryBytes (e : Endian) (en : AssetDirectoryEntry) :
    (dirEntryBytes e en).length = 52 := by
  simp [dirEntryBytes, encFourCC, length_enc]

theorem adirBytes_ok_length {e : Endian} {entries : List AssetDirectoryEntry} {bs : Bytes}
    (h : adirBytes e entries = .ok bs) : bs.length = 4 + 52 * entries.length := by
  unfold adirBytes at h
  split_ifs at h with hc
  injection h with h'
  subst h'
  have hu : ∀ b ∈ entries.map (dirEntryBytes e), b.length = 52 := by
    intro b hb
    obtain ⟨en, _, rfl⟩ := List.mem_map.mp hb
    exact length_dirEntryBytes e en
  rw [List.length_append, length_enc, flatten_length_uniform _ 52 hu, List.length_map]

theorem toccBodyOf_length (e : Endian) (tb mb sb : Bytes) :
    (toccBodyOf e tb mb sb).length = 24 + tb.length + 24 + mb.length + 24 + sb.length := by
  simp [toccBodyOf, length_chunkHeaderBytes]
  omega

theorem drop_len_plus : ∀ (xs ys : List α) (m : Nat), (xs ++ ys).drop (xs.length + m) = ys.drop m := by
  intro xs
  induction xs with
  | nil => intro ys m; simp
  | cons x xs ih =>
    intro ys m
    have harith : (x :: xs).length + m = (xs.length + m) + 1 := by simp; omega
    rw [harith, List.cons_append, List.drop_succ_cons, ih]

theorem sumTake_cons_succ (b : Bytes) (blocks : List Bytes) (k : Nat) :
    sumTake (b :: blocks) (k + 1) = b.length + sumTake blocks k := by
  simp [sumTake]

theorem sumTake_succ :
    ∀ (blocks : List Bytes) (k : Nat) (hk : k < blocks.length),
      sumTake blocks (k + 1) = sumTake blocks k + (blocks.get ⟨k, hk⟩).length := by
  intro blocks
  induction blocks with
  | nil => intro k hk; exact absurd hk (by simp)
  | cons b bs ih =>
    intro k hk
    match k with
    | 0 => simp [sumTake]
    | k + 1 =>
      rw [sumTake_cons_succ, sumTake_cons_succ, ih k (by simpa using hk)]
      simp
      omega

theorem sumTake_mono : ∀ (blocks : List Bytes) (k1 k2 : Nat), k1 ≤ k2 →
    sumTake blocks k1 ≤ sumTake blocks k2 := by
  intro blocks
  induction blocks with
  | nil => intro k1 k2 _; simp [sumTake]
  | cons b bs ih =>
    intro k1 k2 hle
    match k1, k2 with
    | 0, _ => simp [sumTake]
    | k1 + 1, k2 + 1 =>
      rw [sumTake_cons_succ, sumTake_cons_succ]
      have := ih k1 k2 (by omega)
      omega

theorem flatten_block_slice :
    ∀ (blocks : List Bytes) (k : Nat) (hk : k < blocks.length) (tail : Bytes),
      ((blocks.flatten ++ tail).drop (sumTake blocks k)).take (blocks.get ⟨k, hk⟩).length =
        blocks.get ⟨k, hk⟩ := by
  intro blocks
  induction blocks with
  | nil => intro k hk; exact absurd hk (by simp)
  | cons b bs ih =>
    intro k hk tail
    match k with
    | 0 =>
      show ((((b :: bs).flatten ++ tail)).drop (sumTake (b :: bs) 0)).take b.length = b
      rw [show sumTake (b :: bs) 0 = 0 from rfl, List.drop_zero, List.flatten_cons,
        List.append_assoc]
      exact List.take_left b _
    | k + 1 =>
      have hk' : k < bs.length := by simpa using hk
      show (((b :: bs).flatten ++ tail).drop (sumTake (b :: bs) (k + 1))).take
        (bs.get ⟨k, hk'⟩).length = bs.get ⟨k, hk'⟩
      rw [sumTake_cons_succ, List.flatten_cons, List.append_assoc, drop_len_plus]
      exact ih k hk' tail

theorem payloadOffsets_length :
    ∀ (l : List (Nat × Asset)) (base : Nat), (payloadOffsets base l).length = l.length := by
  intro l
  induction l with
  | nil => intro base; rfl
  | cons p rest ih =>
    intro base
    obtain ⟨i, a⟩ := p
    simp [payloadOffsets, ih]

theorem payloadOffsets_get? :
    ∀ (l : List (Nat × Asset)) (base k : Nat) (hk : k < l.length),
      (payloadOffsets base l)[k]? =
        some ((l.get ⟨k, hk⟩).1, base + sumTake (l.map (fun p => p.2.data)) k) := by
  intro l
  induction l with
  | nil => intro base k hk; exact absurd hk (by simp)
  | cons p rest ih =>
    intro base k hk
    obtain ⟨i, a⟩ := p
    match k with
    | 0 => simp [payloadOffsets, sumTake]
    | k + 1 =>
      have hk' : k < rest.length := by simpa using hk
      have := ih (base + a.data.length) k hk'
      simp only [payloadOffsets, List.getElem?_cons_succ, this, List.map_cons,
        sumTake_cons_succ, List.get_cons_succ]
      rw [Nat.add_assoc]

theorem payloadOffsets_map_fst :
    ∀ (l : List (Nat × Asset)) (base : Nat),
      (payloadOffsets base l).map Prod.fst = l.map Prod.fst := by
  intro l
  induction l with
  | nil => intro base; rfl
  | cons p rest ih =>
    intro base
    obtain ⟨i, a⟩ := p
    simp [payloadOffsets, ih]

theorem find?_of_getElem?_nodup {β : Type} :
    ∀ (l : List (Nat × β)) (k i : Nat) (v : β),
      l[k]? = some (i, v) → (l.map Prod.fst).Nodup →
      l.find? (fun p => p.1 == i) = some (i, v) := by
  intro l
  induction l with
  | nil => intro k i v hk; simp at hk
  | cons p ps ih =>
    intro k i v hk hnd
    rw [List.map_cons] at hnd
    obtain ⟨hnotin, hnd'⟩ := List.nodup_cons.mp hnd
    match k with
    | 0 =>
      simp only [List.getElem?_cons_zero, Option.some.injEq] at hk
      subst hk
      simp [List.find?]
    | k + 1 =>
      simp only [List.getElem?_cons_succ] at hk
      have hmem : i ∈ ps.map Prod.fst := by
        have hv : (i, v) ∈ ps := by
          obtain ⟨hlt, hgeteq⟩ := List.getElem?_eq_some.mp hk
          exact hgeteq ▸ List.getElem_mem hlt
        simpa using List.mem_map_of_mem Prod.fst hv
      have hne : (p.1 == i) = false := by
        rw [beq_eq_false_iff_ne]
        intro he
        exact hnotin (he ▸ hmem)
      rw [List.find?_cons, hne]
      exact ih k i v hk hnd'

theorem finalEntriesOf_length (pkg : Package) (offs : List (Nat × Nat)) :
    (finalEntriesOf pkg offs).length = pkg.assets.length := by
  simp [finalEntriesOf, List.enum_length]

theorem finalEntriesOf_get (pkg : Package) (offs : List (Nat × Nat)) (i : Nat)
    (hi : i < pkg.assets.length) (hf : i < (finalEntriesOf pkg offs).length) :
    (finalEntriesOf pkg offs).get ⟨i, hf⟩ =
      { initialEntry (pkg.assets.get ⟨i, hi⟩) with offset := lookupOff offs i } := by
  simp only [finalEntriesOf, List.get_eq_getElem, List.getElem_map, List.getElem_enum]

/-- Unpack a successful `writeParts` into its stages. -/
theorem writeParts_ok {pkg : Package} {e : Endian} {fents : List AssetDirectoryEntry}
    {out : Bytes} (h : writeParts pkg e = .ok (fents, out)) :
    ∃ metaBody strgBody adirTable,
      fents = finalEntriesOf pkg (offsOf pkg metaBody strgBody) ∧
      adirBytes e fents = .ok adirTable ∧
      out = packOut e pkg adirTable metaBody strgBody := by
  simp only [writeParts, bind_ok_iff] at h
  obtain ⟨⟨mE, metaBody⟩, hml, h⟩ := h
  obtain ⟨strgBody, hsb, h⟩ := h
  obtain ⟨adirTable, hab, h⟩ := h
  simp only [Except.ok.injEq, Prod.mk.injEq] at h
  obtain ⟨hf, ho⟩ := h
  rw [hf] at hab
  exact ⟨metaBody, strgBody, adirTable, hf.symm, hab, ho.symm⟩

/-- The output splits as (headers and tables) ++ payload section ++
padding, with the prefix exactly `payloadStartOf` bytes long. -/
theorem packOut_split (e : Endian) (pkg : Package) (adirTable metaBody strgBody : Bytes) :
    packOut e pkg adirTable metaBody strgBody =
      packPre e pkg adirTable metaBody strgBody ++ payloadOf pkg ++
        packPad e pkg adirTable metaBody strgBody := by
  simp only [packOut, packPre, packBodyOf, List.append_assoc]

theorem packPre_length (e : Endian) (pkg : Package) (adirTable metaBody strgBody : Bytes)
    (hlen : adirTable.length = 4 + 52 * pkg.assets.length) :
    (packPre e pkg adirTable metaBody strgBody).length =
      payloadStartOf pkg metaBody strgBody := by
  rw [packPre, List.length_append, List.length_append, length_formHeaderBytes,
    length_formHeaderBytes, toccBodyOf_length, hlen, payloadStartOf]

/-- The output's bytes 88 onward start with the (back-patched) directory
table: `adir_pos` = 32 + 32 + 24. -/
theorem packOut_adir_split (e : Endian) (pkg : Package) (adirTable metaBody strgBody : Bytes) :
    packOut e pkg adirTable metaBody strgBody =
      adirPre e pkg adirTable metaBody strgBody ++ adirTable ++
        adirPost e pkg adirTable metaBody strgBody := by
  simp only [packOut, packBodyOf, adirPre, adirPost, toccBodyOf, List.append_assoc]

theorem adirPre_length (e : Endian) (pkg : Package) (adirTable metaBody strgBody : Bytes) :
    (adirPre e pkg adirTable metaBody strgBody).length = 88 := by
  rw [adirPre, List.length_append, List.length_append, length_formHeaderBytes,
    length_formHeaderBytes, length_chunkHeaderBytes]

/-- Where asset `i`'s payload lands: its position in the stable sort and
the offset recorded for it. -/
theorem offsets_spec (pkg : Package) (start : Nat) (i : Nat) (hi : i < pkg.assets.length) :
    ∃ k, ∃ hk : k < (sortPairs pkg).length,
      (sortPairs pkg).get ⟨k, hk⟩ = (i, pkg.assets.get ⟨i, hi⟩) ∧
      lookupOff (payloadOffsets start (sortPairs pkg)) i =
        start + sumTake ((sortPairs pkg).map (fun p => p.2.data)) k := by
  have hperm := sortByKey_perm assetKey pkg.assets.enum
  have hil : i < pkg.assets.enum.length := by rw [List.enum_length]; exact hi
  have hmem : (i, pkg.assets.get ⟨i, hi⟩) ∈ sortPairs pkg := by
    rw [sortPairs]
    refine hperm.mem_iff.mpr ?_
    have hrme : pkg.assets.enum.get ⟨i, hil⟩ = (i, pkg.assets.get ⟨i, hi⟩) := by
      rw [List.get_eq_getElem, List.getElem_enum]
      simp [List.get_eq_getElem]
    exact hrme ▸ List.get_mem pkg.assets.enum i hil
  obtain ⟨⟨k, hk⟩, hget⟩ := List.get_of_mem hmem
  refine ⟨k, hk, hget, ?_⟩
  have hnodup : ((payloadOffsets start (sortPairs pkg)).map Prod.fst).Nodup := by
    rw [payloadOffsets_map_fst, sortPairs]
    have hpermf := hperm.map Prod.fst
    rw [hpermf.nodup_iff, List.enum_map_fst]
    exact List.nodup_range _
  have hko := payloadOffsets_get? (sortPairs pkg) start k hk
  rw [hget] at hko
  have hfind := find?_of_getElem?_nodup (payloadOffsets start (sortPairs pkg)) k i
    (start + sumTake ((sortPairs pkg).map (fun p => p.2.data)) k) hko hnodup
  rw [lookupOff, hfind]
  rfl

/-- C2: every directory entry the writer builds starts with offset 0 and
records `size = decompressed_size =` the asset's in-memory payload
length; the emitted (back-patched) entries keep
`size = decompressed_size = payload length`, and the output bytes at
`[offset, offset+size)` of each emitted entry are exactly that asset's
payload — the writer stores every asset uncompressed, including assets
that were compressed in the package they were read from. -/
theorem c2_writer_never_recompresses :
    ∀ (pkg : Package) (e : Endian) (fents : List AssetDirectoryEntry) (out : Bytes),
      writeParts pkg e = .ok (fents, out) →
      (∀ a ∈ pkg.assets, (initialEntry a).offset = 0 ∧
        (initialEntry a).size = a.data.length ∧
        (initialEntry a).decompressed_size = a.data.length) ∧
      fents.length = pkg.assets.length ∧
      ∀ i (hi : i < pkg.assets.length) (hf : i < fents.length),
        (fents.get ⟨i, hf⟩).size = (pkg.assets.get ⟨i, hi⟩).data.length ∧
        (fents.get ⟨i, hf⟩).decompressed_size = (pkg.assets.get ⟨i, hi⟩).data.length ∧
        (out.drop (fents.get ⟨i, hf⟩).offset).take (fents.get ⟨i, hf⟩).size =
          (pkg.assets.get ⟨i, hi⟩).data := by
  intro pkg e fents out h
  obtain ⟨metaBody, strgBody, adirTable, hfents, hadir, hout⟩ := writeParts_ok h
  have hatl : adirTable.length = 4 + 52 * pkg.assets.length := by
    rw [adirBytes_ok_length hadir, hfents, finalEntriesOf_length]
  have hsplit := packOut_split e pkg adirTable metaBody strgBody
  have hpre := packPre_length e pkg adirTable metaBody strgBody hatl
  subst hfents
  refine ⟨fun a _ => ⟨rfl, rfl, rfl⟩, finalEntriesOf_length _ _, ?_⟩
  intro i hi hf
  have hfe := finalEntriesOf_get pkg (offsOf pkg metaBody strgBody) i hi hf
  obtain ⟨k, hk, hsk, hoff⟩ := offsets_spec pkg (payloadStartOf pkg metaBody strgBody) i hi
  refine ⟨by rw [hfe]; rfl, by rw [hfe]; rfl, ?_⟩
  rw [hfe]
  show ((out.drop (lookupOff (offsOf pkg metaBody strgBody) i)).take
    ((pkg.assets.get ⟨i, hi⟩).data.length)) = (pkg.assets.get ⟨i, hi⟩).data
  rw [offsOf, hoff, hout, hsplit, ← hpre, List.append_assoc, drop_len_plus]
  have hkb : k < ((sortPairs pkg).map (fun p => p.2.data)).length := by
    rw [List.length_map]; exact hk
  have hbk : ((sortPairs pkg).map (fun p => p.2.data)).get ⟨k, hkb⟩ =
      (pkg.assets.get ⟨i, hi⟩).data := by
    simp only [List.get_eq_getElem, List.getElem_map]
    rw [show (sortPairs pkg)[k] = (sortPairs pkg).get ⟨k, hk⟩ from rfl, hsk]
    rfl
  rw [← hbk, payloadOf]
  exact flatten_block_slice _ k hkb (packPad e pkg adirTable metaBody strgBody)

/-- Witness for C2: the single-asset package written concretely; its
emitted entry stores the payload uncompressed and the output slice at
its offset is the payload. -/
theorem c2_witness :
    (partsA.1.get ⟨0, by decide⟩).size = ((⟨[assetA]⟩ : Package).assets.get ⟨0, by decide⟩).data.length ∧
    (partsA.1.get ⟨0, by decide⟩).decompressed_size =
      ((⟨[assetA]⟩ : Package).assets.get ⟨0, by decide⟩).data.length ∧
    (partsA.2.drop (partsA.1.get ⟨0, by decide⟩).offset).take (partsA.1.get ⟨0, by decide⟩).size =
      ((⟨[assetA]⟩ : Package).assets.get ⟨0, by decide⟩).data :=
  (c2_writer_never_recompresses ⟨[assetA]⟩ .little partsA.1 partsA.2 (by decide)).2.2
    0 (by decide) (by decide)

/-- C5: the writer emits the payload section in ascending
`AssetInfo.orig_offset` order (the stable sort `sortPairs`), records each
payload's absolute position into its directory entry's offset, and the
directory region it patched in place at `adir_pos` = 88 carries those
final entries; consequently two assets whose `orig_offset`s are ordered
have their payload bytes laid out in that same order in the output, even
when the asset-list order differs. -/
theorem c5_payload_layout_order :
    ∀ (pkg : Package) (e : Endian) (fents : List AssetDirectoryEntry) (out : Bytes),
      writeParts pkg e = .ok (fents, out) →
      (∀ i j (hi : i < pkg.assets.length) (hj : j < pkg.assets.length)
         (hfi : i < fents.length) (hfj : j < fents.length),
        (pkg.assets.get ⟨i, hi⟩).info.orig_offset <
            (pkg.assets.get ⟨j, hj⟩).info.orig_offset →
        (fents.get ⟨i, hfi⟩).offset + (pkg.assets.get ⟨i, hi⟩).data.length ≤
          (fents.get ⟨j, hfj⟩).offset) ∧
      (∃ metaBody strgBody adirTable,
        adirBytes e fents = .ok adirTable ∧
        fents = finalEntriesOf pkg (offsOf pkg metaBody strgBody) ∧
        out = packPre e pkg adirTable metaBody strgBody ++ payloadOf pkg ++
          packPad e pkg adirTable metaBody strgBody ∧
        out = adirPre e pkg adirTable metaBody strgBody ++ adirTable ++
          adirPost e pkg adirTable metaBody strgBody ∧
        (adirPre e pkg adirTable metaBody strgBody).length = 88) := by
  intro pkg e fents out h
  obtain ⟨metaBody, strgBody, adirTable, hfents, hadir, hout⟩ := writeParts_ok h
  subst hfents
  constructor
  · intro i j hi hj hfi hfj horder
    have hfei := finalEntriesOf_get pkg (offsOf pkg metaBody strgBody) i hi hfi
    have hfej := finalEntriesOf_get pkg (offsOf pkg metaBody strgBody) j hj hfj
    obtain ⟨ki, hki, hski, hoffi⟩ :=
      offsets_spec pkg (payloadStartOf pkg metaBody strgBody) i hi
    obtain ⟨kj, hkj, hskj, hoffj⟩ :=
      offsets_spec pkg (payloadStartOf pkg metaBody strgBody) j hj
    have hsorted : List.Pairwise (fun a b => assetKey a ≤ assetKey b) (sortPairs pkg) :=
      sortByKey_sorted assetKey pkg.assets.enum
    have hklt : ki < kj := by
      rcases Nat.lt_trichotomy ki kj with h1 | h1 | h1
      · exact h1
      · exfalso
        subst h1
        have hpair : ((i : Nat), pkg.assets.get ⟨i, hi⟩) =
            ((j : Nat), pkg.assets.get ⟨j, hj⟩) := hski.symm.trans hskj
        have hij : i = j := congrArg Prod.fst hpair
        subst hij
        exact absurd horder (lt_irrefl _)
      · exfalso
        have hple : (pkg.assets.get ⟨j, hj⟩).info.orig_offset ≤
            (pkg.assets.get ⟨i, hi⟩).info.orig_offset := by
          have hp := List.pairwise_iff_get.mp hsorted ⟨kj, hkj⟩ ⟨ki, hki⟩ h1
          rw [hski, hskj] at hp
          exact hp
        omega
    rw [hfei, hfej]
    show lookupOff (offsOf pkg metaBody strgBody) i +
        (pkg.assets.get ⟨i, hi⟩).data.length ≤ lookupOff (offsOf pkg metaBody strgBody) j
    rw [offsOf, hoffi, hoffj]
    have hkib : ki < ((sortPairs pkg).map (fun p => p.2.data)).length := by
      rw [List.length_map]; exact hki
    have hsucc := sumTake_succ ((sortPairs pkg).map (fun p => p.2.data)) ki hkib
    have hbki0 : ((sortPairs pkg).map (fun p => p.2.data)).get ⟨ki, hkib⟩ =
        (pkg.assets.get ⟨i, hi⟩).data := by
      simp only [List.get_eq_getElem, List.getElem_map]
      rw [show (sortPairs pkg)[ki] = (sortPairs pkg).get ⟨ki, hki⟩ from rfl, hski]
      rfl
    have hbki := congrArg List.length hbki0
    have hmono := sumTake_mono ((sortPairs pkg).map (fun p => p.2.data))
      (ki + 1) kj (by omega)
    omega
  · exact ⟨metaBody, strgBody, adirTable, hadir, rfl,
      by rw [hout]; exact packOut_split e pkg adirTable metaBody strgBody,
      by rw [hout]; exact packOut_adir_split e pkg adirTable metaBody strgBody,
      adirPre_length e pkg adirTable metaBody strgBody⟩

/-- Witness for C5: in `pkgTwo` the second-listed asset has the smaller
`orig_offset` (100 < 144), so its payload is laid out before the first
asset's in the written output. -/
theorem c5_witness :
    (partsTwo.1.get ⟨1, by decide⟩).offset +
        (pkgTwo.assets.get ⟨1, by decide⟩).data.length ≤
      (partsTwo.1.get ⟨0, by decide⟩).offset :=
  (c5_payload_layout_order pkgTwo .little partsTwo.1 partsTwo.2 (by decide)).1
    1 0 (by decide) (by decide) (by decide) (by decide) (by decide)

/-- C10: the payload-emission sort is stable — the assets carrying any
one `orig_offset` value are emitted in asset-list relative order — and
when every asset shares one `orig_offset`, the emission order is exactly
the asset-list order.  The emitted layout is a pure function of the
asset list by construction. -/
theorem c10_stable_payload_order :
    ∀ (pkg : Package) (c : Nat),
      (sortPairs pkg).filter (fun p => assetKey p == c) =
        pkg.assets.enum.filter (fun p => assetKey p == c) ∧
      ((∀ p ∈ pkg.assets.enum, assetKey p = c) → sortPairs pkg = pkg.assets.enum) := by
  intro pkg c
  constructor
  · exact sortByKey_filter assetKey c pkg.assets.enum
  · intro hall
    exact sortByKey_all_eq assetKey c pkg.assets.enum hall

/-- Witness for C10: two assets with equal `orig_offset` keep their
asset-list relative order in the emission sort. -/
theorem c10_witness : sortPairs pkgDup = pkgDup.assets.enum :=
  (c10_stable_payload_order pkgDup 144).2 (by decide)

end RetroPack
